import Mathlib

/-!
# Stabilizer tableau of `src/sim/main.cpp`

A shallow embedding of the packed bit tables (`BitTableView` and the lazy
expression objects built from it) and of the stabilizer tableau
`ComboBitTable` with its constructor, its gates, its row multiplication and its
random measurement branch, together with a reference algebra of signed Pauli
strings the sign arithmetic is compared with.

Pointers into the owning buffer are word offsets, the buffer is a map from
word offsets to 64-bit words, and every loop of the source is a left fold over
its index range that reads and writes the buffer in the order the source does.
-/

namespace TurnTable

/-! ## Memory -/

/-- Contents of the owning buffer: the 64-bit word stored at each word offset. -/
abbrev Memory := Nat → Nat

/-- The assignment `data[a] = v`. -/
@[noinline]
def store (m : Memory) (a v : Nat) : Memory :=
  fun b => if b = a then v else m b

/-- All 64 bits set: the word `~0`. -/
def ones64 : Nat := 2 ^ 64 - 1

/-- The complement `~w` of a 64-bit word (flip each of its 64 bits). -/
def not64 (w : Nat) : Nat := w ^^^ ones64

/-! ## Views and lazy expressions -/

/-- A view `(data, width, height)` over the buffer, `data` being a word offset. -/
structure BitTableView where
  data : Nat
  width : Nat
  height : Nat
deriving DecidableEq, Repr

/-- The member `total`, set to `width * height` by the constructor. -/
def BitTableView.total (v : BitTableView) : Nat := v.width * v.height

/-- `row(offset)`: the one-row view starting `offset * width` words in. -/
def BitTableView.row (v : BitTableView) (offset : Nat) : BitTableView :=
  ⟨v.data + offset * v.width, v.width, 1⟩

/-- `rowSlice(start, stop)`. The height `stop - start` is a `size_t`
difference: it wraps around modulo `2 ^ 64` when `stop < start`. -/
def BitTableView.rowSlice (v : BitTableView) (start stop : Nat) : BitTableView :=
  ⟨v.data + start * v.width, v.width, (stop % 2 ^ 64 + 2 ^ 64 - start % 2 ^ 64) % 2 ^ 64⟩

/-- The expression object `t1 & t2`. -/
structure BitTableIntersection where
  t1 : BitTableView
  t2 : BitTableView
deriving DecidableEq, Repr

/-- The expression object `t1 ^ t2 ^ mask`. -/
structure BitTableXor where
  t1 : BitTableView
  t2 : BitTableView
  mask : Nat
deriving DecidableEq, Repr

/-- The expression object `t1 & t2` of an intersection and a masked xor. -/
structure BitTableXorIntersection where
  t1 : BitTableIntersection
  t2 : BitTableXor
deriving DecidableEq, Repr

/-- `operator&` of two views. -/
def BitTableView.and (v rhs : BitTableView) : BitTableIntersection := ⟨v, rhs⟩

/-- Modelled from the spec: the mask of `operator^`. The source writes
`{*this, rhs}` and leaves the mask out; by §4.2 the mask is the constant term
that `~` folds into, so the XOR of two views carries the mask 0. -/
def BitTableView.xor (v rhs : BitTableView) : BitTableXor := ⟨v, rhs, 0⟩

/-- `BitTableXor::operator~`: only the mask is complemented. -/
def BitTableXor.not (e : BitTableXor) : BitTableXor := ⟨e.t1, e.t2, not64 e.mask⟩

/-- Modelled from the spec: `operator&` of an intersection and a masked xor is
used by `cnot` but not defined in the source; it builds the
`BitTableXorIntersection` holding both operands. -/
def BitTableIntersection.and (e : BitTableIntersection) (rhs : BitTableXor) :
    BitTableXorIntersection := ⟨e, rhs⟩

/-- `operator^=(const BitTableView&)`. -/
def BitTableView.xorAssign (v rhs : BitTableView) (m : Memory) : Memory :=
  (List.range v.total).foldl
    (fun m i => store m (v.data + i) (m (v.data + i) ^^^ m (rhs.data + i))) m

/-- `operator^=(const BitTableIntersection&)`. -/
def BitTableView.xorAssignIntersection (v : BitTableView) (rhs : BitTableIntersection)
    (m : Memory) : Memory :=
  (List.range v.total).foldl
    (fun m i => store m (v.data + i)
      (m (v.data + i) ^^^ (m (rhs.t1.data + i) &&& m (rhs.t2.data + i)))) m

/-- `operator^=(const BitTableXor&)`. -/
def BitTableView.xorAssignXor (v : BitTableView) (rhs : BitTableXor) (m : Memory) : Memory :=
  (List.range v.total).foldl
    (fun m i => store m (v.data + i)
      (m (v.data + i) ^^^ (m (rhs.t1.data + i) ^^^ m (rhs.t2.data + i) ^^^ rhs.mask))) m

/-- `operator^=(const BitTableXorIntersection&)`. -/
def BitTableView.xorAssignXorIntersection (v : BitTableView) (rhs : BitTableXorIntersection)
    (m : Memory) : Memory :=
  (List.range v.total).foldl
    (fun m i => store m (v.data + i)
      (m (v.data + i) ^^^
        (m (rhs.t1.t1.data + i) &&& m (rhs.t1.t2.data + i) &&&
          (m (rhs.t2.t1.data + i) ^^^ m (rhs.t2.t2.data + i) ^^^ rhs.t2.mask)))) m

/-- The common shape of the four `operator^=` loops. -/
def xorLoop (dst : Nat) (e : Memory → Nat → Nat) (total : Nat) (m : Memory) : Memory :=
  (List.range total).foldl (fun m i => store m (dst + i) (m (dst + i) ^^^ e m i)) m

/-! ## The tableau -/

/-- The tableau object: the row width in words, the number of rows of the `x`
and of the `z` table, and the contents of the buffer `data` points to. -/
@[ext]
structure ComboBitTable where
  width : Nat
  height : Nat
  data : Memory

namespace ComboBitTable

/-- The view `x`: `BitTableView(data, width, height)`. -/
def x (T : ComboBitTable) : BitTableView := ⟨0, T.width, T.height⟩

/-- The view `z`: `BitTableView(data + width * height, width, height)`. -/
def z (T : ComboBitTable) : BitTableView := ⟨T.width * T.height, T.width, T.height⟩

/-- The view `r`: `BitTableView(data + width * height * 2, width, 1)`. -/
def r (T : ComboBitTable) : BitTableView := ⟨T.width * T.height * 2, T.width, 1⟩

/-- `cnot(control, target)`. -/
def cnot (T : ComboBitTable) (control target : Nat) : ComboBitTable :=
  let m1 := T.r.xorAssignXorIntersection
    (((T.x.row control).and (T.z.row target)).and
      ((T.x.row target).xor (T.z.row target)).not) T.data
  let m2 := (T.x.row target).xorAssign (T.x.row control) m1
  let m3 := (T.z.row control).xorAssign (T.z.row target) m2
  { T with data := m3 }

/-- `hadamard(target)`. -/
def hadamard (T : ComboBitTable) (target : Nat) : ComboBitTable :=
  let xr := T.x.row target
  let zr := T.z.row target
  let m1 := T.r.xorAssignIntersection (xr.and zr) T.data
  let m2 := xr.xorAssign zr m1
  let m3 := zr.xorAssign xr m2
  let m4 := xr.xorAssign zr m3
  { T with data := m4 }

/-- `phase(target)`. -/
def phase (T : ComboBitTable) (target : Nat) : ComboBitTable :=
  let xr := T.x.row target
  let zr := T.z.row target
  let m1 := T.r.xorAssignIntersection (xr.and zr) T.data
  let m2 := zr.xorAssign xr m1
  { T with data := m2 }

/-- Word `w` of the `X` bit vector of qubit `q` (row `q` of the view `x`). -/
def xWord (T : ComboBitTable) (q w : Nat) : Nat := T.data ((T.x.row q).data + w)

/-- Word `w` of the `Z` bit vector of qubit `q` (row `q` of the view `z`). -/
def zWord (T : ComboBitTable) (q w : Nat) : Nat := T.data ((T.z.row q).data + w)

/-- Word `w` of the phase vector (the view `r`). -/
def rWord (T : ComboBitTable) (w : Nat) : Nat := T.data (T.r.data + w)

end ComboBitTable

/-! ## The gates on explicit row offsets -/

/-- The four statements of `hadamard` on rows at offsets `R`, `A`, `B`. -/
def hadamardCore (R A B n : Nat) (m : Memory) : Memory :=
  (BitTableView.mk A n 1).xorAssign ⟨B, n, 1⟩
    ((BitTableView.mk B n 1).xorAssign ⟨A, n, 1⟩
      ((BitTableView.mk A n 1).xorAssign ⟨B, n, 1⟩
        ((BitTableView.mk R n 1).xorAssignIntersection ⟨⟨A, n, 1⟩, ⟨B, n, 1⟩⟩ m)))

/-- The two statements of `phase` on rows at offsets `R`, `A`, `B`. -/
def phaseCore (R A B n : Nat) (m : Memory) : Memory :=
  (BitTableView.mk B n 1).xorAssign ⟨A, n, 1⟩
    ((BitTableView.mk R n 1).xorAssignIntersection ⟨⟨A, n, 1⟩, ⟨B, n, 1⟩⟩ m)

/-- The three statements of `cnot` on the phase row at `R`, the `x` rows of
control and target at `Xc`, `Xt` and their `z` rows at `Zc`, `Zt`. -/
def cnotCore (R Xc Xt Zc Zt n : Nat) (m : Memory) : Memory :=
  (BitTableView.mk Zc n 1).xorAssign ⟨Zt, n, 1⟩
    ((BitTableView.mk Xt n 1).xorAssign ⟨Xc, n, 1⟩
      ((BitTableView.mk R n 1).xorAssignXorIntersection
        ⟨⟨⟨Xc, n, 1⟩, ⟨Zt, n, 1⟩⟩, ⟨⟨Xt, n, 1⟩, ⟨Zt, n, 1⟩, not64 0⟩⟩ m))

/-- Pairwise disjointness of the five rows `cnot` touches. -/
structure CnotRows (R Xc Xt Zc Zt n : Nat) : Prop where
  rxc : Xc + n ≤ R ∨ R + n ≤ Xc
  rxt : Xt + n ≤ R ∨ R + n ≤ Xt
  rzc : Zc + n ≤ R ∨ R + n ≤ Zc
  rzt : Zt + n ≤ R ∨ R + n ≤ Zt
  xcxt : Xc + n ≤ Xt ∨ Xt + n ≤ Xc
  xczc : Xc + n ≤ Zc ∨ Zc + n ≤ Xc
  xczt : Xc + n ≤ Zt ∨ Zt + n ≤ Xc
  xtzc : Xt + n ≤ Zc ∨ Zc + n ≤ Xt
  xtzt : Xt + n ≤ Zt ∨ Zt + n ≤ Xt
  zczt : Zc + n ≤ Zt ∨ Zt + n ≤ Zc

/-! ## Single bits -/

/-- The word `w` with bit `k` set to `b`. -/
def setWordBit (w k : Nat) (b : Bool) : Nat :=
  if w.testBit k = b then w else w ^^^ 2 ^ k

/-- Modelled from the spec: the single-bit read, which the source writes
`x[i][a]`, `x[i, j]` and `r[i]` without declaring an accessor. Rows are packed
64 bits to the word (§3): bit `col` of row `row` of a view is bit `col % 64` of
word `col / 64` of the row. -/
def BitTableView.getBit (v : BitTableView) (m : Memory) (row col : Nat) : Bool :=
  (m (v.data + row * v.width + col / 64)).testBit (col % 64)

/-- Modelled from the spec: the single-bit assignment, which the source writes
`r[i] = ...` and `x[i, :n] ^= ...` without declaring an accessor: bit `col` of
row `row` of a view takes the value `b`. -/
def BitTableView.setBit (v : BitTableView) (m : Memory) (row col : Nat) (b : Bool) : Memory :=
  store m (v.data + row * v.width + col / 64)
    (setWordBit (m (v.data + row * v.width + col / 64)) (col % 64) b)

/-- Modelled from the spec: `col`, which the source uses without defining it.
The assignment `v.col(dst) = v.col(src)` gives bit `dst` of every row of the
view the value of bit `src` of that row (§4.5: row `p` is copied into its
partner row). -/
def BitTableView.colAssign (v : BitTableView) (dst src : Nat) (m : Memory) : Memory :=
  (List.range v.height).foldl (fun m row => v.setBit m row dst (v.getBit m row src)) m

/-- Modelled from the spec: `col`, which the source uses without defining it.
The assignment `v.col(dst) = 0` clears bit `dst` of every row of the view. -/
def BitTableView.colClear (v : BitTableView) (dst : Nat) (m : Memory) : Memory :=
  (List.range v.height).foldl (fun m row => v.setBit m row dst false) m

/-! ## Sign arithmetic -/

/-- `pauli_product_phase(x1, z1, x2, z2)`. -/
def pauli_product_phase (x1 z1 x2 z2 : Bool) : Int :=
  let p1 : Int := (x1.toNat ||| (z1.toNat <<< 1) : Nat)
  let p2 : Int := (x2.toNat ||| (z2.toNat <<< 1) : Nat)
  if p1 * p2 = 0 then 0 else (4 + p2 - p1) % 3 - 1

/-! ## Measurement -/

namespace ComboBitTable

/-- Modelled from the spec: the view `all`, which the source declares and uses
but never sets. It covers the whole buffer (§3: one owning buffer holding the
`X`, `Z` and phase sub-tables): the `height` rows of `x`, the `height` rows of
`z` and the row of `r`. -/
def all (T : ComboBitTable) : BitTableView := ⟨0, T.width, T.height * 2 + 1⟩

/-- Modelled from the spec: the member `_n`, used but not declared in the
source. It is the qubit count `n` of §3, the number of rows of `x` and of `z`. -/
def _n (T : ComboBitTable) : Nat := T.height

/-- The bit `x[i][a]` (also written `x[i, a]`): the `X` bit of generator `i` on
qubit `a`, stored as bit `i` of row `a` of `x`. -/
def xBit (T : ComboBitTable) (i a : Nat) : Bool := T.x.getBit T.data a i

/-- The bit `z[i][a]`: the `Z` bit of generator `i` on qubit `a`. -/
def zBit (T : ComboBitTable) (i a : Nat) : Bool := T.z.getBit T.data a i

/-- The bit `r[i]`: the phase bit of generator `i`. -/
def rBit (T : ComboBitTable) (i : Nat) : Bool := T.r.getBit T.data 0 i

/-- `_row_product_sign(i, k)`. The shift of the `int` is arithmetic. -/
def _row_product_sign (T : ComboBitTable) (i k : Nat) : Bool :=
  let t : Int := (List.range T._n).foldl
    (fun t j => t + pauli_product_phase (T.xBit i j) (T.zBit i j) (T.xBit k j) (T.zBit k j)) 0
  let t := t >>> 1
  let t := Int.land t 1
  (T.rBit i ^^ T.rBit k) ^^ (t != 0)

/-- `_row_mult(i, k)`: the phase assignment, then `x[i, :n] ^= x[k, :n]` and
`z[i, :n] ^= z[k, :n]` qubit by qubit. -/
def _row_mult (T : ComboBitTable) (i k : Nat) : ComboBitTable :=
  let m1 := T.r.setBit T.data 0 i (T._row_product_sign i k)
  let m2 := (List.range T._n).foldl
    (fun m j => T.x.setBit m j i (T.x.getBit m j i ^^ T.x.getBit m j k)) m1
  let m3 := (List.range T._n).foldl
    (fun m j => T.z.setBit m j i (T.z.getBit m j i ^^ T.z.getBit m j k)) m2
  { T with data := m3 }

/-- `_measure_random(a, p, result)`. The member `data` of a view is a
`uint64_t*`, so `z.row(a).data[p + n] = 1` and `r.data[p + n] = result` are
assignments of whole words: the word `p + n` words past the start of row `a` of
`z` becomes `1`, and the word `p + n` words past the start of `r` becomes the
`bool` converted to `0` or `1`. -/
def _measure_random (T : ComboBitTable) (a p : Nat) (result : Bool) : ComboBitTable :=
  let n := T._n
  let m1 := T.all.colAssign p (p + n) T.data
  let m2 := T.all.colClear (p + n) m1
  let m3 := store m2 ((T.z.row a).data + (p + n)) 1
  let m4 := store m3 (T.r.data + (p + n)) result.toNat
  (List.range (2 * n)).foldl
    (fun T i => if T.xBit i a && i != p && i != p + n then T._row_mult i p else T)
    { T with data := m4 }

/-- The tableau `_measure_random` holds when it enters its loop. -/
def measurePrep (T : ComboBitTable) (a p : Nat) (result : Bool) : ComboBitTable :=
  let n := T._n
  let m1 := T.all.colAssign p (p + n) T.data
  let m2 := T.all.colClear (p + n) m1
  let m3 := store m2 ((T.z.row a).data + (p + n)) 1
  let m4 := store m3 (T.r.data + (p + n)) result.toNat
  { T with data := m4 }

/-- One round of the loop of `_measure_random`. -/
def measureStep (a p n : Nat) (T : ComboBitTable) (i : Nat) : ComboBitTable :=
  if T.xBit i a && i != p && i != p + n then T._row_mult i p else T

end ComboBitTable

/-! ## Flat bit addresses -/

/-- Bit `k` of the buffer: bit `k % 64` of word `k / 64`. -/
def memBit (m : Memory) (k : Nat) : Bool := (m (k / 64)).testBit (k % 64)

/-- Assignment of bit `k` of the buffer. -/
def memSetBit (m : Memory) (k : Nat) (b : Bool) : Memory :=
  store m (k / 64) (setWordBit (m (k / 64)) (k % 64) b)

/-- Flat address of bit `g` of row `ρ` in a buffer of rows of `W` words. -/
def cidx (W ρ g : Nat) : Nat := 64 * (ρ * W) + g

/-- A loop `for j < N` assigning the bit at `idx j` the value `f m j`. -/
def bitLoop (idx : Nat → Nat) (f : Memory → Nat → Bool) (N : Nat) (m : Memory) : Memory :=
  (List.range N).foldl (fun m j => memSetBit m (idx j) (f m j)) m

/-- Bit `g` of row `ρ` of the buffer of a tableau, rows counted through `x`
(rows `0 .. height - 1`), `z` (rows `height .. 2 * height - 1`) and `r` (row
`2 * height`). -/
def ComboBitTable.cell (T : ComboBitTable) (ρ g : Nat) : Bool :=
  memBit T.data (cidx T.width ρ g)

/-! ## Symplectic inner product -/

namespace ComboBitTable

/-- Symplectic inner product of generators `i` and `k`: the sum over the
qubits `j` of `X[i][j] * Z[k][j] + Z[i][j] * X[k][j]`, modulo 2. -/
def symplectic (T : ComboBitTable) (i k : Nat) : Nat :=
  ((List.range T._n).map (fun j =>
    (T.xBit i j).toNat * (T.zBit k j).toNat + (T.zBit i j).toNat * (T.xBit k j).toNat)).sum % 2

end ComboBitTable

/-- Parity of the number of `j < n` with `f j` set. -/
def xorFold (n : Nat) (f : Nat → Bool) : Bool :=
  (List.range n).foldl (fun acc j => acc ^^ f j) false

/-- Symplectic inner product, as a parity, of two Pauli strings on `n` qubits
given by their `X` and `Z` bits. -/
def sympV (n : Nat) (x1 z1 x2 z2 : Nat → Bool) : Bool :=
  xorFold n (fun j => (x1 j && z2 j) ^^ (z1 j && x2 j))

/-- Symplectic inner product of generators `i` and `k` as a parity. -/
def ComboBitTable.sp (T : ComboBitTable) (i k : Nat) : Bool :=
  sympV T.height (T.xBit i) (T.zBit i) (T.xBit k) (T.zBit k)

/-! ## Gate sequences -/

/-- A call of one of the three gate methods. -/
inductive Gate where
  | hadamard (target : Nat)
  | phase (target : Nat)
  | cnot (control target : Nat)
deriving DecidableEq, Repr

/-- The call on a tableau. -/
def Gate.apply (T : ComboBitTable) : Gate → ComboBitTable
  | .hadamard target => T.hadamard target
  | .phase target => T.phase target
  | .cnot control target => T.cnot control target

/-- The qubits of the call are below `n`, and control and target differ. -/
def Gate.inRange (n : Nat) : Gate → Bool
  | .hadamard target => decide (target < n)
  | .phase target => decide (target < n)
  | .cnot control target => decide (control < n) && decide (target < n) && decide (control ≠ target)

/-- A finite sequence of calls, first call first. -/
def applyGates (T : ComboBitTable) (gs : List Gate) : ComboBitTable :=
  gs.foldl Gate.apply T

/-! ## Reference states -/

/-- The one-qubit tableau with destabilizer `Z0` and stabilizer `X0`, phases 0
(buffer words `2, 1, 0`): the state `hadamard(0)` makes of the identity state. -/
def plusState : ComboBitTable :=
  { width := 1, height := 1, data := fun a => [2, 1, 0].getD a 0 }

/-- The tableau `plusState` in rows of 64 words, the row width the constructor
stores for one qubit: word 0 of the `x` row is `2`, word 0 of the `z` row (word
64 of the buffer) is `1` and every other word is 0. -/
def plusState64 : ComboBitTable :=
  { width := 64, height := 1, data := fun a => if a = 0 then 2 else if a = 64 then 1 else 0 }

/-- A three-qubit tableau with one word per row holding the destabilizers `Z0`,
`-X1`, `X2` and the stabilizers `X0`, `Z1`, `Z2` (buffer words
`8, 2, 4, 1, 16, 32, 2`): the state `hadamard(0); phase(1); phase(1)` make of
the identity state. -/
def threeQubitState : ComboBitTable :=
  { width := 1, height := 3, data := fun a => [8, 2, 4, 1, 16, 32, 2].getD a 0 }

/-- Modelled from the spec: the identity stabilizer state of §3 (destabilizer
`i` is `X` on qubit `i`, stabilizer `n + i` is `Z` on qubit `i`, all phases 0)
in a buffer of `n` rows of `width` words for each of `x` and `z` and one row for
`r`. The constructor of the source allocates the buffer and does not fill it. -/
def identity (width n : Nat) : ComboBitTable :=
  { width := width
    height := n
    data := fun a =>
      if a < width * n then
        if a % width = (a / width) / 64 then 2 ^ ((a / width) % 64) else 0
      else if a < width * n * 2 then
        if (a - width * n) % width = (n + (a - width * n) / width) / 64
        then 2 ^ ((n + (a - width * n) / width) % 64) else 0
      else 0 }

/-- A two-qubit tableau with one word per row holding the generators `Z0`,
`Z0 X1`, `X0 Z1`, `Z1`, all with phase 0 (buffer words `4, 2, 3, 12, 0`): the
stabilizer state of `hadamard(0)` followed by a controlled-Z on the identity. -/
def czState : ComboBitTable :=
  { width := 1, height := 2, data := fun a => [4, 2, 3, 12, 0].getD a 0 }

/-! ## Words of the lazy expressions and the accumulated phase -/

/-- The word `operator^=(const BitTableXor&)` XORs into word `i` of its
destination: `rhs.t1.data[i] ^ rhs.t2.data[i] ^ rhs.mask`. -/
def BitTableXor.word (e : BitTableXor) (m : Memory) (i : Nat) : Nat :=
  m (e.t1.data + i) ^^^ m (e.t2.data + i) ^^^ e.mask

/-- The word `operator^=(const BitTableXorIntersection&)` XORs into word `i` of
its destination. -/
def BitTableXorIntersection.word (e : BitTableXorIntersection) (m : Memory) (i : Nat) : Nat :=
  m (e.t1.t1.data + i) &&& m (e.t1.t2.data + i) &&&
    (m (e.t2.t1.data + i) ^^^ m (e.t2.t2.data + i) ^^^ e.t2.mask)

/-- The integer `t` that `_row_product_sign(i, k)` accumulates before it is
shifted and masked. -/
def ComboBitTable.rowPhaseSum (T : ComboBitTable) (i k : Nat) : Int :=
  (List.range T._n).foldl
    (fun t j => t + pauli_product_phase (T.xBit i j) (T.zBit i j) (T.xBit k j) (T.zBit k j)) 0

/-! ## Reference Pauli algebra -/

/-- The imaginary unit as a Gaussian integer. -/
def gaussI : GaussianInt := ⟨0, 1⟩

/-- The 2 by 2 matrix the bit pair `(x, z)` denotes: `(0,0)` is the identity,
`(1,0)` is `X`, `(0,1)` is `Z` and `(1,1)` is `Y`. -/
def pauliMatrix (x z : Bool) : Matrix (Fin 2) (Fin 2) GaussianInt :=
  match x, z with
  | false, false => !![1, 0; 0, 1]
  | true, false => !![0, 1; 1, 0]
  | false, true => !![1, 0; 0, -1]
  | true, true => !![0, -gaussI; gaussI, 0]

/-- Reference exponent of `i` in the product of the Paulis `(x1, z1)` and
`(x2, z2)`, in this order: `+1` for `XY`, `YZ`, `ZX`, `-1` for `YX`, `ZY`, `XZ`,
`0` otherwise. -/
def pauliExponent (x1 z1 x2 z2 : Bool) : Int :=
  match x1, z1 with
  | false, false => 0
  | true, false => if z2 then (if x2 then 1 else -1) else 0
  | false, true => if x2 then (if z2 then -1 else 1) else 0
  | true, true => (if z2 then 1 else 0) - (if x2 then 1 else 0)

/-- A signed Pauli string: the phase `i ^ phase` and the `X` and `Z` bits of
each qubit, the bit pair `(1, 1)` denoting `Y`. -/
structure PauliString where
  phase : Int
  x : Nat → Bool
  z : Nat → Bool

/-- Sum over the `n` qubits of the reference exponents of two strings. -/
def PauliString.exponentSum (n : Nat) (P Q : PauliString) : Int :=
  (List.range n).foldl (fun t j => t + pauliExponent (P.x j) (P.z j) (Q.x j) (Q.z j)) 0

/-- Reference product of two signed Pauli strings on `n` qubits: the bits are
XORed and the exponents of `i` add up, modulo 4, with the exponent each qubit
contributes. -/
def PauliString.mul (n : Nat) (P Q : PauliString) : PauliString :=
  { phase := (P.phase + Q.phase + PauliString.exponentSum n P Q) % 4
    x := fun j => P.x j ^^ Q.x j
    z := fun j => P.z j ^^ Q.z j }

/-- Generator `i` of a tableau as a signed Pauli string: the phase bit `r[i]`
stands for the sign `(-1) ^ r[i] = i ^ (2 * r[i])`. -/
def ComboBitTable.rowString (T : ComboBitTable) (i : Nat) : PauliString :=
  { phase := if T.rBit i then 2 else 0
    x := fun j => T.xBit i j
    z := fun j => T.zBit i j }

/-! ## Construction -/

/-- The padded width the constructor stores: `(width + 63) & ~0x1F` in `size_t`
arithmetic, the `int` mask `~0x1F` being converted to `2 ^ 64 - 32`. -/
def paddedWidth (width : Nat) : Nat := ((width + 63) % 2 ^ 64) &&& (2 ^ 64 - 32)

/-- The number of words the constructor allocates:
`this.width * (this.height * 2 + 1) / 64` in `size_t` arithmetic. -/
def allocatedWords (width height : Nat) : Nat :=
  (paddedWidth width * (height * 2 + 1)) % 2 ^ 64 / 64

/-- The constructor `ComboBitTable(width, height)`. It stores the padded width
and the height, allocates the buffer and sets the views `x`, `z` and `r`; it
writes no word of the buffer, whose contents after `new uint64_t[...]` are
indeterminate and are the parameter `heap`. -/
def ComboBitTable.new (width height : Nat) (heap : Memory) : ComboBitTable :=
  { width := paddedWidth width, height := height, data := heap }

/-- Generator `g` of an `n`-qubit tableau is the string with the given phase bit
whose `X` and `Z` bits on qubit `j < n` are `xs j` and `zs j`. -/
def ComboBitTable.RowIs (T : ComboBitTable) (g : Nat) (xs zs : Nat → Bool) (phase : Bool) :
    Prop :=
  (∀ j, j < T.height → T.xBit g j = xs j ∧ T.zBit g j = zs j) ∧ T.rBit g = phase

end TurnTable

namespace TurnTable

/-! ## The `operator^=` loops -/

theorem xorLoop_succ (dst : Nat) (e : Memory → Nat → Nat) (k : Nat) (m : Memory) :
    xorLoop dst e (k + 1) m
      = store (xorLoop dst e k m) (dst + k) (xorLoop dst e k m (dst + k) ^^^ e (xorLoop dst e k m) k) := by
  simp [xorLoop, List.range_succ, List.foldl_append]

theorem xorLoop_upto (dst : Nat) (e : Memory → Nat → Nat) (total : Nat) (m : Memory)
    (hE : ∀ m' : Memory, (∀ a, (a < dst ∨ dst + total ≤ a) → m' a = m a) →
      ∀ i, i < total → e m' i = e m i) :
    ∀ k, k ≤ total → ∀ a, xorLoop dst e k m a
      = if dst ≤ a ∧ a < dst + k then m a ^^^ e m (a - dst) else m a := by
  intro k
  induction k with
  | zero =>
    intro _ a
    rw [if_neg (by omega)]
    rfl
  | succ k ih =>
    intro hk a
    have ihk := ih (by omega)
    have hagree : ∀ b, (b < dst ∨ dst + total ≤ b) → xorLoop dst e k m b = m b := by
      intro b hb
      rw [ihk b, if_neg (by omega)]
    rw [xorLoop_succ, hE _ hagree k (by omega), ihk (dst + k), if_neg (by omega)]
    unfold store
    by_cases h : a = dst + k
    · subst h
      simp
    · rw [if_neg h, ihk a]
      by_cases h1 : dst ≤ a ∧ a < dst + k
      · rw [if_pos h1, if_pos (by omega)]
      · rw [if_neg h1, if_neg (by omega)]

theorem xorLoop_apply (dst : Nat) (e : Memory → Nat → Nat) (total : Nat) (m : Memory)
    (hE : ∀ m' : Memory, (∀ a, (a < dst ∨ dst + total ≤ a) → m' a = m a) →
      ∀ i, i < total → e m' i = e m i) (a : Nat) :
    xorLoop dst e total m a
      = if dst ≤ a ∧ a < dst + total then m a ^^^ e m (a - dst) else m a :=
  xorLoop_upto dst e total m hE total (Nat.le_refl _) a

theorem xorAssign_apply (v rhs : BitTableView) (m : Memory)
    (h : rhs.data + v.total ≤ v.data ∨ v.data + v.total ≤ rhs.data) (a : Nat) :
    v.xorAssign rhs m a
      = if v.data ≤ a ∧ a < v.data + v.total then m a ^^^ m (rhs.data + (a - v.data))
        else m a := by
  have := xorLoop_apply v.data (fun m i => m (rhs.data + i)) v.total m
    (fun m' hm i hi => hm _ (by omega)) a
  exact this

theorem xorAssignIntersection_apply (v : BitTableView) (rhs : BitTableIntersection) (m : Memory)
    (h1 : rhs.t1.data + v.total ≤ v.data ∨ v.data + v.total ≤ rhs.t1.data)
    (h2 : rhs.t2.data + v.total ≤ v.data ∨ v.data + v.total ≤ rhs.t2.data) (a : Nat) :
    v.xorAssignIntersection rhs m a
      = if v.data ≤ a ∧ a < v.data + v.total
        then m a ^^^ (m (rhs.t1.data + (a - v.data)) &&& m (rhs.t2.data + (a - v.data)))
        else m a := by
  have := xorLoop_apply v.data (fun m i => m (rhs.t1.data + i) &&& m (rhs.t2.data + i))
    v.total m
    (fun m' hm i hi => by
      show m' _ &&& m' _ = m _ &&& m _
      rw [hm _ (by omega), hm _ (by omega)]) a
  exact this

theorem xorAssignXorIntersection_apply (v : BitTableView) (rhs : BitTableXorIntersection)
    (m : Memory)
    (h1 : rhs.t1.t1.data + v.total ≤ v.data ∨ v.data + v.total ≤ rhs.t1.t1.data)
    (h2 : rhs.t1.t2.data + v.total ≤ v.data ∨ v.data + v.total ≤ rhs.t1.t2.data)
    (h3 : rhs.t2.t1.data + v.total ≤ v.data ∨ v.data + v.total ≤ rhs.t2.t1.data)
    (h4 : rhs.t2.t2.data + v.total ≤ v.data ∨ v.data + v.total ≤ rhs.t2.t2.data) (a : Nat) :
    v.xorAssignXorIntersection rhs m a
      = if v.data ≤ a ∧ a < v.data + v.total
        then m a ^^^ (m (rhs.t1.t1.data + (a - v.data)) &&& m (rhs.t1.t2.data + (a - v.data)) &&&
          (m (rhs.t2.t1.data + (a - v.data)) ^^^ m (rhs.t2.t2.data + (a - v.data))
            ^^^ rhs.t2.mask))
        else m a := by
  have := xorLoop_apply v.data
    (fun m i => m (rhs.t1.t1.data + i) &&& m (rhs.t1.t2.data + i) &&&
      (m (rhs.t2.t1.data + i) ^^^ m (rhs.t2.t2.data + i) ^^^ rhs.t2.mask))
    v.total m
    (fun m' hm i hi => by
      show m' _ &&& m' _ &&& (m' _ ^^^ m' _ ^^^ _) = m _ &&& m _ &&& (m _ ^^^ m _ ^^^ _)
      rw [hm _ (by omega), hm _ (by omega), hm _ (by omega), hm _ (by omega)]) a
  exact this

/-! ## One-row views -/

theorem xorAssign_at (D S n h : Nat) (m : Memory) (i : Nat) (hi : i < n)
    (hd : S + n ≤ D ∨ D + n ≤ S) :
    (BitTableView.mk D n 1).xorAssign ⟨S, n, h⟩ m (D + i) = m (D + i) ^^^ m (S + i) := by
  have := xorAssign_apply ⟨D, n, 1⟩ ⟨S, n, h⟩ m
    (by simp only [BitTableView.total, Nat.mul_one]; omega) (D + i)
  simp only [BitTableView.total, Nat.mul_one] at this
  rw [this, if_pos (by omega), Nat.add_sub_cancel_left]

theorem xorAssign_frame (D S n h : Nat) (m : Memory) (a : Nat)
    (ha : a < D ∨ D + n ≤ a) (hd : S + n ≤ D ∨ D + n ≤ S) :
    (BitTableView.mk D n 1).xorAssign ⟨S, n, h⟩ m a = m a := by
  have := xorAssign_apply ⟨D, n, 1⟩ ⟨S, n, h⟩ m
    (by simp only [BitTableView.total, Nat.mul_one]; omega) a
  simp only [BitTableView.total, Nat.mul_one] at this
  rw [this, if_neg (by omega)]

theorem xorAssignIntersection_at (D A B n h1 h2 : Nat) (m : Memory) (i : Nat) (hi : i < n)
    (hA : A + n ≤ D ∨ D + n ≤ A) (hB : B + n ≤ D ∨ D + n ≤ B) :
    (BitTableView.mk D n 1).xorAssignIntersection ⟨⟨A, n, h1⟩, ⟨B, n, h2⟩⟩ m (D + i)
      = m (D + i) ^^^ (m (A + i) &&& m (B + i)) := by
  have := xorAssignIntersection_apply ⟨D, n, 1⟩ ⟨⟨A, n, h1⟩, ⟨B, n, h2⟩⟩ m
    (by simp only [BitTableView.total, Nat.mul_one]; omega)
    (by simp only [BitTableView.total, Nat.mul_one]; omega) (D + i)
  simp only [BitTableView.total, Nat.mul_one] at this
  rw [this, if_pos (by omega), Nat.add_sub_cancel_left]

theorem xorAssignIntersection_frame (D A B n h1 h2 : Nat) (m : Memory) (a : Nat)
    (ha : a < D ∨ D + n ≤ a)
    (hA : A + n ≤ D ∨ D + n ≤ A) (hB : B + n ≤ D ∨ D + n ≤ B) :
    (BitTableView.mk D n 1).xorAssignIntersection ⟨⟨A, n, h1⟩, ⟨B, n, h2⟩⟩ m a = m a := by
  have := xorAssignIntersection_apply ⟨D, n, 1⟩ ⟨⟨A, n, h1⟩, ⟨B, n, h2⟩⟩ m
    (by simp only [BitTableView.total, Nat.mul_one]; omega)
    (by simp only [BitTableView.total, Nat.mul_one]; omega) a
  simp only [BitTableView.total, Nat.mul_one] at this
  rw [this, if_neg (by omega)]

theorem xorAssignXorIntersection_at (D A B C E n h1 h2 h3 h4 k : Nat) (m : Memory) (i : Nat)
    (hi : i < n)
    (hA : A + n ≤ D ∨ D + n ≤ A) (hB : B + n ≤ D ∨ D + n ≤ B)
    (hC : C + n ≤ D ∨ D + n ≤ C) (hE : E + n ≤ D ∨ D + n ≤ E) :
    (BitTableView.mk D n 1).xorAssignXorIntersection
        ⟨⟨⟨A, n, h1⟩, ⟨B, n, h2⟩⟩, ⟨⟨C, n, h3⟩, ⟨E, n, h4⟩, k⟩⟩ m (D + i)
      = m (D + i) ^^^ (m (A + i) &&& m (B + i) &&& (m (C + i) ^^^ m (E + i) ^^^ k)) := by
  have := xorAssignXorIntersection_apply ⟨D, n, 1⟩
    ⟨⟨⟨A, n, h1⟩, ⟨B, n, h2⟩⟩, ⟨⟨C, n, h3⟩, ⟨E, n, h4⟩, k⟩⟩ m
    (by simp only [BitTableView.total, Nat.mul_one]; omega)
    (by simp only [BitTableView.total, Nat.mul_one]; omega)
    (by simp only [BitTableView.total, Nat.mul_one]; omega)
    (by simp only [BitTableView.total, Nat.mul_one]; omega) (D + i)
  simp only [BitTableView.total, Nat.mul_one] at this
  rw [this, if_pos (by omega), Nat.add_sub_cancel_left]

theorem xorAssignXorIntersection_frame (D A B C E n h1 h2 h3 h4 k : Nat) (m : Memory)
    (a : Nat) (ha : a < D ∨ D + n ≤ a)
    (hA : A + n ≤ D ∨ D + n ≤ A) (hB : B + n ≤ D ∨ D + n ≤ B)
    (hC : C + n ≤ D ∨ D + n ≤ C) (hE : E + n ≤ D ∨ D + n ≤ E) :
    (BitTableView.mk D n 1).xorAssignXorIntersection
        ⟨⟨⟨A, n, h1⟩, ⟨B, n, h2⟩⟩, ⟨⟨C, n, h3⟩, ⟨E, n, h4⟩, k⟩⟩ m a = m a := by
  have := xorAssignXorIntersection_apply ⟨D, n, 1⟩
    ⟨⟨⟨A, n, h1⟩, ⟨B, n, h2⟩⟩, ⟨⟨C, n, h3⟩, ⟨E, n, h4⟩, k⟩⟩ m
    (by simp only [BitTableView.total, Nat.mul_one]; omega)
    (by simp only [BitTableView.total, Nat.mul_one]; omega)
    (by simp only [BitTableView.total, Nat.mul_one]; omega)
    (by simp only [BitTableView.total, Nat.mul_one]; omega) a
  simp only [BitTableView.total, Nat.mul_one] at this
  rw [this, if_neg (by omega)]

/-! ## The gates on abstract row offsets -/

theorem hadamardCore_r (R A B n : Nat) (m : Memory)
    (hRA : A + n ≤ R ∨ R + n ≤ A) (hRB : B + n ≤ R ∨ R + n ≤ B) (hAB : A + n ≤ B ∨ B + n ≤ A)
    (i : Nat) (hi : i < n) :
    hadamardCore R A B n m (R + i) = m (R + i) ^^^ (m (A + i) &&& m (B + i)) := by
  unfold hadamardCore
  rw [xorAssign_frame _ _ _ _ _ _ (by omega) (by omega),
    xorAssign_frame _ _ _ _ _ _ (by omega) (by omega),
    xorAssign_frame _ _ _ _ _ _ (by omega) (by omega),
    xorAssignIntersection_at _ _ _ _ _ _ _ _ hi (by omega) (by omega)]

theorem xor_swap_x (p q : Nat) : p ^^^ q ^^^ (q ^^^ (p ^^^ q)) = q := by
  rw [Nat.xor_comm p q, Nat.xor_cancel_left, Nat.xor_cancel_right]

theorem hadamardCore_x (R A B n : Nat) (m : Memory)
    (hRA : A + n ≤ R ∨ R + n ≤ A) (hRB : B + n ≤ R ∨ R + n ≤ B) (hAB : A + n ≤ B ∨ B + n ≤ A)
    (i : Nat) (hi : i < n) :
    hadamardCore R A B n m (A + i) = m (B + i) := by
  unfold hadamardCore
  simp (disch := omega) only [xorAssign_at, xorAssign_frame, xorAssignIntersection_at,
    xorAssignIntersection_frame]
  exact xor_swap_x _ _

theorem hadamardCore_z (R A B n : Nat) (m : Memory)
    (hRA : A + n ≤ R ∨ R + n ≤ A) (hRB : B + n ≤ R ∨ R + n ≤ B) (hAB : A + n ≤ B ∨ B + n ≤ A)
    (i : Nat) (hi : i < n) :
    hadamardCore R A B n m (B + i) = m (A + i) := by
  unfold hadamardCore
  simp (disch := omega) only [xorAssign_at, xorAssign_frame, xorAssignIntersection_at,
    xorAssignIntersection_frame]
  rw [Nat.xor_comm (m (A + i)), Nat.xor_cancel_left]

theorem hadamardCore_frame (R A B n : Nat) (m : Memory)
    (hRA : A + n ≤ R ∨ R + n ≤ A) (hRB : B + n ≤ R ∨ R + n ≤ B) (hAB : A + n ≤ B ∨ B + n ≤ A)
    (a : Nat) (hR : a < R ∨ R + n ≤ a) (hA : a < A ∨ A + n ≤ a) (hB : a < B ∨ B + n ≤ a) :
    hadamardCore R A B n m a = m a := by
  unfold hadamardCore
  simp (disch := omega) only [xorAssign_frame, xorAssignIntersection_frame]

theorem phaseCore_r (R A B n : Nat) (m : Memory)
    (hRA : A + n ≤ R ∨ R + n ≤ A) (hRB : B + n ≤ R ∨ R + n ≤ B) (hAB : A + n ≤ B ∨ B + n ≤ A)
    (i : Nat) (hi : i < n) :
    phaseCore R A B n m (R + i) = m (R + i) ^^^ (m (A + i) &&& m (B + i)) := by
  unfold phaseCore
  simp (disch := omega) only [xorAssign_frame, xorAssignIntersection_at]

theorem phaseCore_z (R A B n : Nat) (m : Memory)
    (hRA : A + n ≤ R ∨ R + n ≤ A) (hRB : B + n ≤ R ∨ R + n ≤ B) (hAB : A + n ≤ B ∨ B + n ≤ A)
    (i : Nat) (hi : i < n) :
    phaseCore R A B n m (B + i) = m (B + i) ^^^ m (A + i) := by
  unfold phaseCore
  simp (disch := omega) only [xorAssign_at, xorAssignIntersection_frame]

theorem phaseCore_frame (R A B n : Nat) (m : Memory)
    (hRA : A + n ≤ R ∨ R + n ≤ A) (hRB : B + n ≤ R ∨ R + n ≤ B) (hAB : A + n ≤ B ∨ B + n ≤ A)
    (a : Nat) (hR : a < R ∨ R + n ≤ a) (hB : a < B ∨ B + n ≤ a) :
    phaseCore R A B n m a = m a := by
  unfold phaseCore
  simp (disch := omega) only [xorAssign_frame, xorAssignIntersection_frame]

theorem cnotCore_r (R Xc Xt Zc Zt n : Nat) (m : Memory) (h : CnotRows R Xc Xt Zc Zt n)
    (i : Nat) (hi : i < n) :
    cnotCore R Xc Xt Zc Zt n m (R + i)
      = m (R + i) ^^^ (m (Xc + i) &&& m (Zt + i) &&& (m (Xt + i) ^^^ m (Zt + i) ^^^ not64 0)) := by
  obtain ⟨h1, h2, h3, h4, h5, h6, h7, h8, h9, h10⟩ := h
  unfold cnotCore
  simp (disch := omega) only [xorAssign_frame, xorAssignXorIntersection_at]

theorem cnotCore_xt (R Xc Xt Zc Zt n : Nat) (m : Memory) (h : CnotRows R Xc Xt Zc Zt n)
    (i : Nat) (hi : i < n) :
    cnotCore R Xc Xt Zc Zt n m (Xt + i) = m (Xt + i) ^^^ m (Xc + i) := by
  obtain ⟨h1, h2, h3, h4, h5, h6, h7, h8, h9, h10⟩ := h
  unfold cnotCore
  simp (disch := omega) only [xorAssign_frame, xorAssign_at, xorAssignXorIntersection_frame]

theorem cnotCore_zc (R Xc Xt Zc Zt n : Nat) (m : Memory) (h : CnotRows R Xc Xt Zc Zt n)
    (i : Nat) (hi : i < n) :
    cnotCore R Xc Xt Zc Zt n m (Zc + i) = m (Zc + i) ^^^ m (Zt + i) := by
  obtain ⟨h1, h2, h3, h4, h5, h6, h7, h8, h9, h10⟩ := h
  unfold cnotCore
  simp (disch := omega) only [xorAssign_frame, xorAssign_at, xorAssignXorIntersection_frame]

theorem cnotCore_frame (R Xc Xt Zc Zt n : Nat) (m : Memory) (h : CnotRows R Xc Xt Zc Zt n)
    (a : Nat) (hR : a < R ∨ R + n ≤ a) (hX : a < Xt ∨ Xt + n ≤ a) (hZ : a < Zc ∨ Zc + n ≤ a) :
    cnotCore R Xc Xt Zc Zt n m a = m a := by
  obtain ⟨h1, h2, h3, h4, h5, h6, h7, h8, h9, h10⟩ := h
  unfold cnotCore
  simp (disch := omega) only [xorAssign_frame, xorAssignXorIntersection_frame]

namespace ComboBitTable

theorem row_bound (W H q : Nat) (hq : q < H) : q * W + W ≤ W * H := by
  have := Nat.mul_le_mul_right W (Nat.succ_le_of_lt hq)
  rw [Nat.succ_mul, Nat.mul_comm H W] at this
  exact this

theorem row_disjoint (W c t : Nat) (h : c ≠ t) : c * W + W ≤ t * W ∨ t * W + W ≤ c * W := by
  rcases Nat.lt_or_gt_of_ne h with h1 | h1
  · left
    have := Nat.mul_le_mul_right W (Nat.succ_le_of_lt h1)
    rwa [Nat.succ_mul] at this
  · right
    have := Nat.mul_le_mul_right W (Nat.succ_le_of_lt h1)
    rwa [Nat.succ_mul] at this

theorem hadamard_eq_core (T : ComboBitTable) (t : Nat) :
    (T.hadamard t).data
      = hadamardCore (T.width * T.height * 2) (0 + t * T.width)
          (T.width * T.height + t * T.width) T.width T.data := rfl

theorem phase_eq_core (T : ComboBitTable) (t : Nat) :
    (T.phase t).data
      = phaseCore (T.width * T.height * 2) (0 + t * T.width)
          (T.width * T.height + t * T.width) T.width T.data := rfl

theorem cnot_eq_core (T : ComboBitTable) (c t : Nat) :
    (T.cnot c t).data
      = cnotCore (T.width * T.height * 2) (0 + c * T.width) (0 + t * T.width)
          (T.width * T.height + c * T.width) (T.width * T.height + t * T.width)
          T.width T.data := rfl

theorem cnotRows (T : ComboBitTable) (c t : Nat) (hc : c < T.height) (ht : t < T.height)
    (hct : c ≠ t) :
    CnotRows (T.width * T.height * 2) (0 + c * T.width) (0 + t * T.width)
      (T.width * T.height + c * T.width) (T.width * T.height + t * T.width) T.width := by
  have h1 := row_bound T.width T.height c hc
  have h2 := row_bound T.width T.height t ht
  have h3 := row_disjoint T.width c t hct
  constructor <;> omega

/-! ## The gates on the tableau, word by word -/

@[simp] theorem hadamard_width (T : ComboBitTable) (t : Nat) :
    (T.hadamard t).width = T.width := rfl

@[simp] theorem hadamard_height (T : ComboBitTable) (t : Nat) :
    (T.hadamard t).height = T.height := rfl

@[simp] theorem phase_width (T : ComboBitTable) (t : Nat) :
    (T.phase t).width = T.width := rfl

@[simp] theorem phase_height (T : ComboBitTable) (t : Nat) :
    (T.phase t).height = T.height := rfl

@[simp] theorem cnot_width (T : ComboBitTable) (c t : Nat) :
    (T.cnot c t).width = T.width := rfl

@[simp] theorem cnot_height (T : ComboBitTable) (c t : Nat) :
    (T.cnot c t).height = T.height := rfl

theorem hadamard_rows (T : ComboBitTable) (t : Nat) (ht : t < T.height) :
    ((0 + t * T.width) + T.width ≤ T.width * T.height * 2 ∨
      T.width * T.height * 2 + T.width ≤ 0 + t * T.width) ∧
    ((T.width * T.height + t * T.width) + T.width ≤ T.width * T.height * 2 ∨
      T.width * T.height * 2 + T.width ≤ T.width * T.height + t * T.width) ∧
    ((0 + t * T.width) + T.width ≤ T.width * T.height + t * T.width ∨
      (T.width * T.height + t * T.width) + T.width ≤ 0 + t * T.width) := by
  have h1 := row_bound T.width T.height t ht
  refine ⟨?_, ?_, ?_⟩ <;> omega

theorem hadamard_rWord (T : ComboBitTable) (t : Nat) (ht : t < T.height) (w : Nat)
    (hw : w < T.width) :
    (T.hadamard t).rWord w = T.rWord w ^^^ (T.xWord t w &&& T.zWord t w) := by
  obtain ⟨h1, h2, h3⟩ := hadamard_rows T t ht
  show (T.hadamard t).data (T.width * T.height * 2 + w) = _
  rw [hadamard_eq_core, hadamardCore_r _ _ _ _ _ h1 h2 h3 w hw]
  rfl

theorem hadamard_xWord (T : ComboBitTable) (t : Nat) (ht : t < T.height) (w : Nat)
    (hw : w < T.width) :
    (T.hadamard t).xWord t w = T.zWord t w := by
  obtain ⟨h1, h2, h3⟩ := hadamard_rows T t ht
  show (T.hadamard t).data (0 + t * T.width + w) = _
  rw [hadamard_eq_core, hadamardCore_x _ _ _ _ _ h1 h2 h3 w hw]
  rfl

theorem hadamard_zWord (T : ComboBitTable) (t : Nat) (ht : t < T.height) (w : Nat)
    (hw : w < T.width) :
    (T.hadamard t).zWord t w = T.xWord t w := by
  obtain ⟨h1, h2, h3⟩ := hadamard_rows T t ht
  show (T.hadamard t).data (T.width * T.height + t * T.width + w) = _
  rw [hadamard_eq_core, hadamardCore_z _ _ _ _ _ h1 h2 h3 w hw]
  rfl

/-- Addresses outside the phase row and the two rows of qubit `t`. -/
theorem hadamard_frame (T : ComboBitTable) (t : Nat) (ht : t < T.height) (a : Nat)
    (hR : a < T.r.data ∨ T.r.data + T.width ≤ a)
    (hX : a < (T.x.row t).data ∨ (T.x.row t).data + T.width ≤ a)
    (hZ : a < (T.z.row t).data ∨ (T.z.row t).data + T.width ≤ a) :
    (T.hadamard t).data a = T.data a := by
  obtain ⟨h1, h2, h3⟩ := hadamard_rows T t ht
  rw [hadamard_eq_core, hadamardCore_frame _ _ _ _ _ h1 h2 h3 a hR hX hZ]

theorem hadamard_xWord_ne (T : ComboBitTable) (t q : Nat) (ht : t < T.height)
    (hq : q < T.height) (hqt : q ≠ t) (w : Nat) (hw : w < T.width) :
    (T.hadamard t).xWord q w = T.xWord q w := by
  have h1 := row_bound T.width T.height t ht
  have h2 := row_bound T.width T.height q hq
  have h3 := row_disjoint T.width q t hqt
  apply hadamard_frame T t ht <;>
    simp only [x, z, r, BitTableView.row, hadamard_width, hadamard_height] <;> omega

theorem hadamard_zWord_ne (T : ComboBitTable) (t q : Nat) (ht : t < T.height)
    (hq : q < T.height) (hqt : q ≠ t) (w : Nat) (hw : w < T.width) :
    (T.hadamard t).zWord q w = T.zWord q w := by
  have h1 := row_bound T.width T.height t ht
  have h2 := row_bound T.width T.height q hq
  have h3 := row_disjoint T.width q t hqt
  apply hadamard_frame T t ht <;>
    simp only [x, z, r, BitTableView.row, hadamard_width, hadamard_height] <;> omega

theorem phase_rWord (T : ComboBitTable) (t : Nat) (ht : t < T.height) (w : Nat)
    (hw : w < T.width) :
    (T.phase t).rWord w = T.rWord w ^^^ (T.xWord t w &&& T.zWord t w) := by
  obtain ⟨h1, h2, h3⟩ := hadamard_rows T t ht
  show (T.phase t).data (T.width * T.height * 2 + w) = _
  rw [phase_eq_core, phaseCore_r _ _ _ _ _ h1 h2 h3 w hw]
  rfl

theorem phase_zWord (T : ComboBitTable) (t : Nat) (ht : t < T.height) (w : Nat)
    (hw : w < T.width) :
    (T.phase t).zWord t w = T.zWord t w ^^^ T.xWord t w := by
  obtain ⟨h1, h2, h3⟩ := hadamard_rows T t ht
  show (T.phase t).data (T.width * T.height + t * T.width + w) = _
  rw [phase_eq_core, phaseCore_z _ _ _ _ _ h1 h2 h3 w hw]
  rfl

/-- Addresses outside the phase row and the `z` row of qubit `t`. -/
theorem phase_frame (T : ComboBitTable) (t : Nat) (ht : t < T.height) (a : Nat)
    (hR : a < T.r.data ∨ T.r.data + T.width ≤ a)
    (hZ : a < (T.z.row t).data ∨ (T.z.row t).data + T.width ≤ a) :
    (T.phase t).data a = T.data a := by
  obtain ⟨h1, h2, h3⟩ := hadamard_rows T t ht
  rw [phase_eq_core, phaseCore_frame _ _ _ _ _ h1 h2 h3 a hR hZ]

theorem phase_xWord (T : ComboBitTable) (t q : Nat) (ht : t < T.height)
    (hq : q < T.height) (w : Nat) (hw : w < T.width) :
    (T.phase t).xWord q w = T.xWord q w := by
  have h1 := row_bound T.width T.height t ht
  have h2 := row_bound T.width T.height q hq
  apply phase_frame T t ht <;>
    simp only [x, z, r, BitTableView.row, phase_width, phase_height] <;> omega

theorem phase_zWord_ne (T : ComboBitTable) (t q : Nat) (ht : t < T.height)
    (hq : q < T.height) (hqt : q ≠ t) (w : Nat) (hw : w < T.width) :
    (T.phase t).zWord q w = T.zWord q w := by
  have h1 := row_bound T.width T.height t ht
  have h2 := row_bound T.width T.height q hq
  have h3 := row_disjoint T.width q t hqt
  apply phase_frame T t ht <;>
    simp only [x, z, r, BitTableView.row, phase_width, phase_height] <;> omega

theorem cnot_rWord (T : ComboBitTable) (c t : Nat) (hc : c < T.height) (ht : t < T.height)
    (hct : c ≠ t) (w : Nat) (hw : w < T.width) :
    (T.cnot c t).rWord w
      = T.rWord w ^^^ (T.xWord c w &&& T.zWord t w &&&
          (T.xWord t w ^^^ T.zWord t w ^^^ not64 0)) := by
  show (T.cnot c t).data (T.width * T.height * 2 + w) = _
  rw [cnot_eq_core, cnotCore_r _ _ _ _ _ _ _ (cnotRows T c t hc ht hct) w hw]
  rfl

theorem cnot_xWord_target (T : ComboBitTable) (c t : Nat) (hc : c < T.height)
    (ht : t < T.height) (hct : c ≠ t) (w : Nat) (hw : w < T.width) :
    (T.cnot c t).xWord t w = T.xWord t w ^^^ T.xWord c w := by
  show (T.cnot c t).data (0 + t * T.width + w) = _
  rw [cnot_eq_core, cnotCore_xt _ _ _ _ _ _ _ (cnotRows T c t hc ht hct) w hw]
  rfl

theorem cnot_zWord_control (T : ComboBitTable) (c t : Nat) (hc : c < T.height)
    (ht : t < T.height) (hct : c ≠ t) (w : Nat) (hw : w < T.width) :
    (T.cnot c t).zWord c w = T.zWord c w ^^^ T.zWord t w := by
  show (T.cnot c t).data (T.width * T.height + c * T.width + w) = _
  rw [cnot_eq_core, cnotCore_zc _ _ _ _ _ _ _ (cnotRows T c t hc ht hct) w hw]
  rfl

/-- Addresses outside the phase row, the `x` row of the target and the `z` row
of the control. -/
theorem cnot_frame (T : ComboBitTable) (c t : Nat) (hc : c < T.height) (ht : t < T.height)
    (hct : c ≠ t) (a : Nat)
    (hR : a < T.r.data ∨ T.r.data + T.width ≤ a)
    (hX : a < (T.x.row t).data ∨ (T.x.row t).data + T.width ≤ a)
    (hZ : a < (T.z.row c).data ∨ (T.z.row c).data + T.width ≤ a) :
    (T.cnot c t).data a = T.data a := by
  rw [cnot_eq_core, cnotCore_frame _ _ _ _ _ _ _ (cnotRows T c t hc ht hct) a hR hX hZ]

theorem cnot_xWord_ne (T : ComboBitTable) (c t q : Nat) (hc : c < T.height)
    (ht : t < T.height) (hct : c ≠ t) (hq : q < T.height) (hqt : q ≠ t) (w : Nat)
    (hw : w < T.width) :
    (T.cnot c t).xWord q w = T.xWord q w := by
  have h1 := row_bound T.width T.height c hc
  have h2 := row_bound T.width T.height q hq
  have h3 := row_disjoint T.width q t hqt
  apply cnot_frame T c t hc ht hct <;>
    simp only [x, z, r, BitTableView.row, cnot_width, cnot_height] <;> omega

theorem cnot_zWord_ne (T : ComboBitTable) (c t q : Nat) (hc : c < T.height)
    (ht : t < T.height) (hct : c ≠ t) (hq : q < T.height) (hqc : q ≠ c) (w : Nat)
    (hw : w < T.width) :
    (T.cnot c t).zWord q w = T.zWord q w := by
  have h1 := row_bound T.width T.height t ht
  have h2 := row_bound T.width T.height q hq
  have h3 := row_disjoint T.width q c hqc
  apply cnot_frame T c t hc ht hct <;>
    simp only [x, z, r, BitTableView.row, cnot_width, cnot_height] <;> omega

end ComboBitTable
end TurnTable

/-! ## The reference states are reachable -/

namespace TurnTable
namespace ComboBitTable

/-- The state `plusState` is what `hadamard(0)` makes of the one-qubit identity
state. -/
theorem plusState_reached :
    ((identity 1 1).hadamard 0).xWord 0 0 = plusState.xWord 0 0 ∧
    ((identity 1 1).hadamard 0).zWord 0 0 = plusState.zWord 0 0 ∧
    ((identity 1 1).hadamard 0).rWord 0 = plusState.rWord 0 := by
  refine ⟨?_, ?_, ?_⟩
  · rw [hadamard_xWord _ 0 (by decide) 0 (by decide)]; decide
  · rw [hadamard_zWord _ 0 (by decide) 0 (by decide)]; decide
  · rw [hadamard_rWord _ 0 (by decide) 0 (by decide)]; decide

/-- The state `czState` is what `hadamard(0); hadamard(1); cnot(0, 1);
hadamard(1)` make of the two-qubit identity state. -/
theorem czState_reached :
    (((((identity 1 2).hadamard 0).hadamard 1).cnot 0 1).hadamard 1).xWord 0 0
      = czState.xWord 0 0 ∧
    (((((identity 1 2).hadamard 0).hadamard 1).cnot 0 1).hadamard 1).xWord 1 0
      = czState.xWord 1 0 ∧
    (((((identity 1 2).hadamard 0).hadamard 1).cnot 0 1).hadamard 1).zWord 0 0
      = czState.zWord 0 0 ∧
    (((((identity 1 2).hadamard 0).hadamard 1).cnot 0 1).hadamard 1).zWord 1 0
      = czState.zWord 1 0 ∧
    (((((identity 1 2).hadamard 0).hadamard 1).cnot 0 1).hadamard 1).rWord 0
      = czState.rWord 0 := by
  -- after `hadamard(0)`
  have a1 : ((identity 1 2).hadamard 0).xWord 0 0 = 4 := by
    rw [hadamard_xWord _ 0 (by decide) 0 (by decide)]; decide
  have a2 : ((identity 1 2).hadamard 0).xWord 1 0 = 2 := by
    rw [hadamard_xWord_ne _ 0 1 (by decide) (by decide) (by decide) 0 (by decide)]; decide
  have a3 : ((identity 1 2).hadamard 0).zWord 0 0 = 1 := by
    rw [hadamard_zWord _ 0 (by decide) 0 (by decide)]; decide
  have a4 : ((identity 1 2).hadamard 0).zWord 1 0 = 8 := by
    rw [hadamard_zWord_ne _ 0 1 (by decide) (by decide) (by decide) 0 (by decide)]; decide
  have a5 : ((identity 1 2).hadamard 0).rWord 0 = 0 := by
    rw [hadamard_rWord _ 0 (by decide) 0 (by decide)]; decide
  -- after `hadamard(1)`
  have b1 : (((identity 1 2).hadamard 0).hadamard 1).xWord 0 0 = 4 := by
    rw [hadamard_xWord_ne _ 1 0 (by decide) (by decide) (by decide) 0 (by decide), a1]
  have b2 : (((identity 1 2).hadamard 0).hadamard 1).xWord 1 0 = 8 := by
    rw [hadamard_xWord _ 1 (by decide) 0 (by decide), a4]
  have b3 : (((identity 1 2).hadamard 0).hadamard 1).zWord 0 0 = 1 := by
    rw [hadamard_zWord_ne _ 1 0 (by decide) (by decide) (by decide) 0 (by decide), a3]
  have b4 : (((identity 1 2).hadamard 0).hadamard 1).zWord 1 0 = 2 := by
    rw [hadamard_zWord _ 1 (by decide) 0 (by decide), a2]
  have b5 : (((identity 1 2).hadamard 0).hadamard 1).rWord 0 = 0 := by
    rw [hadamard_rWord _ 1 (by decide) 0 (by decide), a5, a2, a4]; decide
  -- after `cnot(0, 1)`
  have c1 : ((((identity 1 2).hadamard 0).hadamard 1).cnot 0 1).xWord 0 0 = 4 := by
    rw [cnot_xWord_ne _ 0 1 0 (by decide) (by decide) (by decide) (by decide) (by decide) 0
      (by decide), b1]
  have c2 : ((((identity 1 2).hadamard 0).hadamard 1).cnot 0 1).xWord 1 0 = 12 := by
    rw [cnot_xWord_target _ 0 1 (by decide) (by decide) (by decide) 0 (by decide), b2, b1]
    decide
  have c3 : ((((identity 1 2).hadamard 0).hadamard 1).cnot 0 1).zWord 0 0 = 3 := by
    rw [cnot_zWord_control _ 0 1 (by decide) (by decide) (by decide) 0 (by decide), b3, b4]
    decide
  have c4 : ((((identity 1 2).hadamard 0).hadamard 1).cnot 0 1).zWord 1 0 = 2 := by
    rw [cnot_zWord_ne _ 0 1 1 (by decide) (by decide) (by decide) (by decide) (by decide) 0
      (by decide), b4]
  have c5 : ((((identity 1 2).hadamard 0).hadamard 1).cnot 0 1).rWord 0 = 0 := by
    rw [cnot_rWord _ 0 1 (by decide) (by decide) (by decide) 0 (by decide), b5, b1, b2, b4]
    decide
  -- after `hadamard(1)`
  refine ⟨?_, ?_, ?_, ?_, ?_⟩
  · rw [hadamard_xWord_ne _ 1 0 (by decide) (by decide) (by decide) 0 (by decide), c1]; decide
  · rw [hadamard_xWord _ 1 (by decide) 0 (by decide), c4]; decide
  · rw [hadamard_zWord_ne _ 1 0 (by decide) (by decide) (by decide) 0 (by decide), c3]; decide
  · rw [hadamard_zWord _ 1 (by decide) 0 (by decide), c2]; decide
  · rw [hadamard_rWord _ 1 (by decide) 0 (by decide), c5, c2, c4]; decide

/-- The state `plusState64` is what `hadamard(0)` makes of the one-qubit
identity state in rows of 64 words. -/
theorem plusState64_reached (w : Nat) (hw : w < 64) :
    ((identity 64 1).hadamard 0).xWord 0 w = plusState64.xWord 0 w ∧
    ((identity 64 1).hadamard 0).zWord 0 w = plusState64.zWord 0 w ∧
    ((identity 64 1).hadamard 0).rWord w = plusState64.rWord w := by
  rw [hadamard_xWord _ 0 (by decide) w hw, hadamard_zWord _ 0 (by decide) w hw,
    hadamard_rWord _ 0 (by decide) w hw]
  revert w
  decide

/-- The state `threeQubitState` is what `hadamard(0); phase(1); phase(1)` make
of the three-qubit identity state. -/
theorem threeQubitState_reached :
    ((((identity 1 3).hadamard 0).phase 1).phase 1).xWord 0 0 = threeQubitState.xWord 0 0 ∧
    ((((identity 1 3).hadamard 0).phase 1).phase 1).xWord 1 0 = threeQubitState.xWord 1 0 ∧
    ((((identity 1 3).hadamard 0).phase 1).phase 1).xWord 2 0 = threeQubitState.xWord 2 0 ∧
    ((((identity 1 3).hadamard 0).phase 1).phase 1).zWord 0 0 = threeQubitState.zWord 0 0 ∧
    ((((identity 1 3).hadamard 0).phase 1).phase 1).zWord 1 0 = threeQubitState.zWord 1 0 ∧
    ((((identity 1 3).hadamard 0).phase 1).phase 1).zWord 2 0 = threeQubitState.zWord 2 0 ∧
    ((((identity 1 3).hadamard 0).phase 1).phase 1).rWord 0 = threeQubitState.rWord 0 := by
  -- after `hadamard(0)`
  have a1 : ((identity 1 3).hadamard 0).xWord 0 0 = 8 := by
    rw [hadamard_xWord _ 0 (by decide) 0 (by decide)]; decide
  have a2 : ((identity 1 3).hadamard 0).xWord 1 0 = 2 := by
    rw [hadamard_xWord_ne _ 0 1 (by decide) (by decide) (by decide) 0 (by decide)]; decide
  have a3 : ((identity 1 3).hadamard 0).xWord 2 0 = 4 := by
    rw [hadamard_xWord_ne _ 0 2 (by decide) (by decide) (by decide) 0 (by decide)]; decide
  have a4 : ((identity 1 3).hadamard 0).zWord 0 0 = 1 := by
    rw [hadamard_zWord _ 0 (by decide) 0 (by decide)]; decide
  have a5 : ((identity 1 3).hadamard 0).zWord 1 0 = 16 := by
    rw [hadamard_zWord_ne _ 0 1 (by decide) (by decide) (by decide) 0 (by decide)]; decide
  have a6 : ((identity 1 3).hadamard 0).zWord 2 0 = 32 := by
    rw [hadamard_zWord_ne _ 0 2 (by decide) (by decide) (by decide) 0 (by decide)]; decide
  have a7 : ((identity 1 3).hadamard 0).rWord 0 = 0 := by
    rw [hadamard_rWord _ 0 (by decide) 0 (by decide)]; decide
  -- after the first `phase(1)`
  have b1 : (((identity 1 3).hadamard 0).phase 1).xWord 0 0 = 8 := by
    rw [phase_xWord _ 1 0 (by decide) (by decide) 0 (by decide), a1]
  have b2 : (((identity 1 3).hadamard 0).phase 1).xWord 1 0 = 2 := by
    rw [phase_xWord _ 1 1 (by decide) (by decide) 0 (by decide), a2]
  have b3 : (((identity 1 3).hadamard 0).phase 1).xWord 2 0 = 4 := by
    rw [phase_xWord _ 1 2 (by decide) (by decide) 0 (by decide), a3]
  have b4 : (((identity 1 3).hadamard 0).phase 1).zWord 0 0 = 1 := by
    rw [phase_zWord_ne _ 1 0 (by decide) (by decide) (by decide) 0 (by decide), a4]
  have b5 : (((identity 1 3).hadamard 0).phase 1).zWord 1 0 = 18 := by
    rw [phase_zWord _ 1 (by decide) 0 (by decide), a5, a2]; decide
  have b6 : (((identity 1 3).hadamard 0).phase 1).zWord 2 0 = 32 := by
    rw [phase_zWord_ne _ 1 2 (by decide) (by decide) (by decide) 0 (by decide), a6]
  have b7 : (((identity 1 3).hadamard 0).phase 1).rWord 0 = 0 := by
    rw [phase_rWord _ 1 (by decide) 0 (by decide), a7, a2, a5]; decide
  -- after the second `phase(1)`
  refine ⟨?_, ?_, ?_, ?_, ?_, ?_, ?_⟩
  · rw [phase_xWord _ 1 0 (by decide) (by decide) 0 (by decide), b1]; decide
  · rw [phase_xWord _ 1 1 (by decide) (by decide) 0 (by decide), b2]; decide
  · rw [phase_xWord _ 1 2 (by decide) (by decide) 0 (by decide), b3]; decide
  · rw [phase_zWord_ne _ 1 0 (by decide) (by decide) (by decide) 0 (by decide), b4]; decide
  · rw [phase_zWord _ 1 (by decide) 0 (by decide), b5, b2]; decide
  · rw [phase_zWord_ne _ 1 2 (by decide) (by decide) (by decide) 0 (by decide), b6]; decide
  · rw [phase_rWord _ 1 (by decide) 0 (by decide), b7, b2, b5]; decide

end ComboBitTable
end TurnTable

/-! ## The gate contracts -/

namespace TurnTable
namespace ComboBitTable

/-- C1, evaluated on `czState` for `cnot(0, 1)`: the code leaves the phase word
at 0, where the rule `X_control AND Z_target AND (X_target XOR Z_control XOR 1)`
of the claim flips the phase of generator 2 (`X0 Z1`), giving the word 4. -/
theorem cnot_phase_word_on_czState :
    (czState.cnot 0 1).rWord 0 = 0 ∧
    czState.rWord 0 ^^^ (czState.xWord 0 0 &&& czState.zWord 1 0 &&&
      (czState.xWord 1 0 ^^^ czState.zWord 0 0 ^^^ ones64)) = 4 := by
  constructor
  · rw [cnot_rWord czState 0 1 (by decide) (by decide) (by decide) 0 (by decide)]
    decide
  · decide

/-- C2, evaluated on `czState`: two successive `cnot(0, 1)` calls restore the
`x` and `z` words of both qubits and turn the phase word from 0 into 4, flipping
the phase of generator 2 (`X0 Z1`). -/
theorem cnot_twice_on_czState :
    ((czState.cnot 0 1).cnot 0 1).xWord 0 0 = czState.xWord 0 0 ∧
    ((czState.cnot 0 1).cnot 0 1).xWord 1 0 = czState.xWord 1 0 ∧
    ((czState.cnot 0 1).cnot 0 1).zWord 0 0 = czState.zWord 0 0 ∧
    ((czState.cnot 0 1).cnot 0 1).zWord 1 0 = czState.zWord 1 0 ∧
    czState.rWord 0 = 0 ∧ ((czState.cnot 0 1).cnot 0 1).rWord 0 = 4 := by
  have hx0 : (czState.cnot 0 1).xWord 0 0 = czState.xWord 0 0 :=
    cnot_xWord_ne czState 0 1 0 (by decide) (by decide) (by decide) (by decide) (by decide)
      0 (by decide)
  have hx1 : (czState.cnot 0 1).xWord 1 0 = czState.xWord 1 0 ^^^ czState.xWord 0 0 :=
    cnot_xWord_target czState 0 1 (by decide) (by decide) (by decide) 0 (by decide)
  have hz0 : (czState.cnot 0 1).zWord 0 0 = czState.zWord 0 0 ^^^ czState.zWord 1 0 :=
    cnot_zWord_control czState 0 1 (by decide) (by decide) (by decide) 0 (by decide)
  have hz1 : (czState.cnot 0 1).zWord 1 0 = czState.zWord 1 0 :=
    cnot_zWord_ne czState 0 1 1 (by decide) (by decide) (by decide) (by decide) (by decide)
      0 (by decide)
  have hr : (czState.cnot 0 1).rWord 0 = czState.rWord 0 ^^^ (czState.xWord 0 0 &&&
      czState.zWord 1 0 &&& (czState.xWord 1 0 ^^^ czState.zWord 1 0 ^^^ not64 0)) :=
    cnot_rWord czState 0 1 (by decide) (by decide) (by decide) 0 (by decide)
  refine ⟨?_, ?_, ?_, ?_, by decide, ?_⟩
  · rw [cnot_xWord_ne _ 0 1 0 (by decide) (by decide) (by decide) (by decide) (by decide)
      0 (by decide), hx0]
  · rw [cnot_xWord_target _ 0 1 (by decide) (by decide) (by decide) 0 (by decide), hx1, hx0]
    decide
  · rw [cnot_zWord_control _ 0 1 (by decide) (by decide) (by decide) 0 (by decide), hz0, hz1]
    decide
  · rw [cnot_zWord_ne _ 0 1 1 (by decide) (by decide) (by decide) (by decide) (by decide)
      0 (by decide), hz1]
  · rw [cnot_rWord _ 0 1 (by decide) (by decide) (by decide) 0 (by decide), hr, hx0, hx1, hz1]
    decide

/-- C3: for an in-range target, `hadamard(target)` XORs `X_target AND Z_target`
(the values before the call) into every word of the phase vector, exchanges the
words of `X_target` and `Z_target`, and leaves the `X` and `Z` words of every
other qubit as they were. -/
theorem hadamard_spec (T : ComboBitTable) (target : Nat) (ht : target < T.height) :
    (∀ w, w < T.width →
      (T.hadamard target).rWord w = T.rWord w ^^^ (T.xWord target w &&& T.zWord target w) ∧
      (T.hadamard target).xWord target w = T.zWord target w ∧
      (T.hadamard target).zWord target w = T.xWord target w) ∧
    (∀ q, q < T.height → q ≠ target → ∀ w, w < T.width →
      (T.hadamard target).xWord q w = T.xWord q w ∧
      (T.hadamard target).zWord q w = T.zWord q w) :=
  ⟨fun w hw => ⟨hadamard_rWord T target ht w hw, hadamard_xWord T target ht w hw,
      hadamard_zWord T target ht w hw⟩,
    fun q hq hqt w hw => ⟨hadamard_xWord_ne T target q ht hq hqt w hw,
      hadamard_zWord_ne T target q ht hq hqt w hw⟩⟩

/-- Witness of C3: `hadamard(0)` on the one-qubit identity state exchanges the
`x` word 1 and the `z` word 2 and leaves the phase word 0. -/
theorem hadamard_spec_witness :
    0 < (identity 1 1).height ∧
    ((identity 1 1).hadamard 0).rWord 0 = 0 ∧
    ((identity 1 1).hadamard 0).xWord 0 0 = 2 ∧
    ((identity 1 1).hadamard 0).zWord 0 0 = 1 := by
  have h := (hadamard_spec (identity 1 1) 0 (by decide)).1 0 (by decide)
  exact ⟨by decide, h.1.trans (by decide), h.2.1.trans (by decide), h.2.2.trans (by decide)⟩

/-- C4: for an in-range target, `phase(target)` XORs `X_target AND Z_target`
(the values before the call) into every word of the phase vector and sets
`Z_target := Z_target XOR X_target`; `X_target` and the `X` and `Z` words of
every other qubit stay as they were. -/
theorem phase_spec (T : ComboBitTable) (target : Nat) (ht : target < T.height) :
    (∀ w, w < T.width →
      (T.phase target).rWord w = T.rWord w ^^^ (T.xWord target w &&& T.zWord target w) ∧
      (T.phase target).zWord target w = T.zWord target w ^^^ T.xWord target w ∧
      (T.phase target).xWord target w = T.xWord target w) ∧
    (∀ q, q < T.height → q ≠ target → ∀ w, w < T.width →
      (T.phase target).xWord q w = T.xWord q w ∧
      (T.phase target).zWord q w = T.zWord q w) :=
  ⟨fun w hw => ⟨phase_rWord T target ht w hw, phase_zWord T target ht w hw,
      phase_xWord T target target ht ht w hw⟩,
    fun q hq hqt w hw => ⟨phase_xWord T target q ht hq w hw,
      phase_zWord_ne T target q ht hq hqt w hw⟩⟩

/-- Witness of C4: `phase(0)` on the one-qubit state with generators `Y0`,
`X0` (words `3, 1, 0`) flips the phase of `Y0` and turns the generators into
`X0` and `Y0`. -/
theorem phase_spec_witness :
    0 < (ComboBitTable.mk 1 1 (fun a => [3, 1, 0].getD a 0)).height ∧
    ((ComboBitTable.mk 1 1 (fun a => [3, 1, 0].getD a 0)).phase 0).rWord 0 = 1 ∧
    ((ComboBitTable.mk 1 1 (fun a => [3, 1, 0].getD a 0)).phase 0).zWord 0 0 = 2 ∧
    ((ComboBitTable.mk 1 1 (fun a => [3, 1, 0].getD a 0)).phase 0).xWord 0 0 = 3 := by
  have h := (phase_spec (ComboBitTable.mk 1 1 (fun a => [3, 1, 0].getD a 0)) 0
    (by decide)).1 0 (by decide)
  exact ⟨by decide, h.1.trans (by decide), h.2.1.trans (by decide), h.2.2.trans (by decide)⟩

/-- C5: for an in-range target, two successive `hadamard(target)` calls leave
the whole buffer, hence the `X` table, the `Z` table and the phase vector, equal
word for word to what it was before the first call. -/
theorem hadamard_twice (T : ComboBitTable) (target : Nat) (ht : target < T.height) :
    (T.hadamard target).hadamard target = T := by
  obtain ⟨h1, h2, h3⟩ := hadamard_rows T target ht
  apply ComboBitTable.ext
  · rfl
  · rfl
  funext a
  rw [hadamard_eq_core, hadamard_width, hadamard_height, hadamard_eq_core]
  by_cases hR : T.width * T.height * 2 ≤ a ∧ a < T.width * T.height * 2 + T.width
  · obtain ⟨i, rfl⟩ : ∃ i, a = T.width * T.height * 2 + i :=
      ⟨a - T.width * T.height * 2, by omega⟩
    have hi : i < T.width := by omega
    rw [hadamardCore_r _ _ _ _ _ h1 h2 h3 i hi, hadamardCore_r _ _ _ _ _ h1 h2 h3 i hi,
      hadamardCore_x _ _ _ _ _ h1 h2 h3 i hi, hadamardCore_z _ _ _ _ _ h1 h2 h3 i hi,
      Nat.and_comm, Nat.xor_cancel_right]
  · by_cases hX : 0 + target * T.width ≤ a ∧ a < 0 + target * T.width + T.width
    · obtain ⟨i, rfl⟩ : ∃ i, a = 0 + target * T.width + i :=
        ⟨a - (0 + target * T.width), by omega⟩
      have hi : i < T.width := by omega
      rw [hadamardCore_x _ _ _ _ _ h1 h2 h3 i hi, hadamardCore_z _ _ _ _ _ h1 h2 h3 i hi]
    · by_cases hZ : T.width * T.height + target * T.width ≤ a ∧
          a < T.width * T.height + target * T.width + T.width
      · obtain ⟨i, rfl⟩ : ∃ i, a = T.width * T.height + target * T.width + i :=
          ⟨a - (T.width * T.height + target * T.width), by omega⟩
        have hi : i < T.width := by omega
        rw [hadamardCore_z _ _ _ _ _ h1 h2 h3 i hi, hadamardCore_x _ _ _ _ _ h1 h2 h3 i hi]
      · rw [hadamardCore_frame _ _ _ _ _ h1 h2 h3 a (by omega) (by omega) (by omega),
          hadamardCore_frame _ _ _ _ _ h1 h2 h3 a (by omega) (by omega) (by omega)]

/-- Witness of C5 on the two-qubit state `czState`, target 1. -/
theorem hadamard_twice_witness :
    1 < czState.height ∧ (czState.hadamard 1).hadamard 1 = czState :=
  ⟨by decide, hadamard_twice czState 1 (by decide)⟩

end ComboBitTable
end TurnTable

namespace TurnTable

/-! ## Single bits of the buffer -/

theorem testBit_setWordBit (w k : Nat) (b : Bool) (j : Nat) :
    (setWordBit w k b).testBit j = if j = k then b else w.testBit j := by
  unfold setWordBit
  by_cases h : w.testBit k = b
  · rw [if_pos h]
    by_cases hj : j = k
    · rw [if_pos hj, hj, h]
    · rw [if_neg hj]
  · rw [if_neg h, Nat.testBit_xor, Nat.testBit_two_pow]
    by_cases hj : j = k
    · subst hj
      rw [if_pos rfl]
      cases hb : b <;> cases hw : w.testBit j <;> simp_all
    · rw [if_neg hj]
      have : ¬ k = j := fun e => hj e.symm
      simp [this]

theorem memBit_memSetBit (m : Memory) (k : Nat) (b : Bool) (k' : Nat) :
    memBit (memSetBit m k b) k' = if k' = k then b else memBit m k' := by
  unfold memBit memSetBit store
  by_cases hk : k' = k
  · subst hk
    simp [testBit_setWordBit]
  · rw [if_neg hk]
    by_cases hw : k' / 64 = k / 64
    · rw [if_pos hw, testBit_setWordBit, if_neg (by omega), hw]
    · rw [if_neg hw]

theorem getBit_eq (v : BitTableView) (m : Memory) (row col : Nat) :
    v.getBit m row col = memBit m (64 * (v.data + row * v.width) + col) := by
  unfold BitTableView.getBit memBit
  have h1 : (64 * (v.data + row * v.width) + col) / 64 = v.data + row * v.width + col / 64 := by
    omega
  have h2 : (64 * (v.data + row * v.width) + col) % 64 = col % 64 := by omega
  rw [h1, h2]

theorem setBit_eq (v : BitTableView) (m : Memory) (row col : Nat) (b : Bool) :
    v.setBit m row col b = memSetBit m (64 * (v.data + row * v.width) + col) b := by
  unfold BitTableView.setBit memSetBit
  have h1 : (64 * (v.data + row * v.width) + col) / 64 = v.data + row * v.width + col / 64 := by
    omega
  have h2 : (64 * (v.data + row * v.width) + col) % 64 = col % 64 := by omega
  rw [h1, h2]

theorem cidx_inj (W ρ g ρ' g' : Nat) (hg : g < 64 * W) (hg' : g' < 64 * W) :
    cidx W ρ g = cidx W ρ' g' ↔ ρ = ρ' ∧ g = g' := by
  unfold cidx
  constructor
  · intro h
    rcases Nat.lt_trichotomy ρ ρ' with h1 | h1 | h1
    · have := Nat.mul_le_mul_right W (Nat.succ_le_of_lt h1)
      rw [Nat.succ_mul] at this
      omega
    · subst h1
      exact ⟨rfl, by omega⟩
    · have := Nat.mul_le_mul_right W (Nat.succ_le_of_lt h1)
      rw [Nat.succ_mul] at this
      omega
  · rintro ⟨rfl, rfl⟩
    rfl

/-! ## Loops over single bits -/

theorem bitLoop_succ (idx : Nat → Nat) (f : Memory → Nat → Bool) (K : Nat) (m : Memory) :
    bitLoop idx f (K + 1) m
      = memSetBit (bitLoop idx f K m) (idx K) (f (bitLoop idx f K m) K) := by
  simp [bitLoop, List.range_succ, List.foldl_append]

/-- After `K` rounds the bits at `idx j`, `j < K`, hold `f m j` and all other
bits are untouched, as long as round `j` reads no bit written in an earlier
round and no two rounds write the same bit. -/
theorem bitLoop_upto (idx : Nat → Nat) (f : Memory → Nat → Bool) (N : Nat) (m : Memory)
    (hinj : ∀ j j', j < N → j' < N → idx j = idx j' → j = j')
    (hf : ∀ j, j < N → ∀ m' : Memory,
      (∀ k, (∀ j', j' < j → idx j' ≠ k) → memBit m' k = memBit m k) → f m' j = f m j) :
    ∀ K, K ≤ N →
      (∀ j, j < K → memBit (bitLoop idx f K m) (idx j) = f m j) ∧
      (∀ k, (∀ j, j < K → idx j ≠ k) → memBit (bitLoop idx f K m) k = memBit m k) := by
  intro K
  induction K with
  | zero =>
    intro _
    exact ⟨fun j hj => absurd hj (Nat.not_lt_zero j), fun k _ => rfl⟩
  | succ K ih =>
    intro hK
    obtain ⟨ih1, ih2⟩ := ih (by omega)
    have hfK : f (bitLoop idx f K m) K = f m K := hf K (by omega) _ ih2
    constructor
    · intro j hj
      rw [bitLoop_succ, memBit_memSetBit, hfK]
      by_cases h : j = K
      · subst h
        rw [if_pos rfl]
      · have hne : idx j ≠ idx K := fun e => h (hinj j K (by omega) (by omega) e)
        rw [if_neg hne]
        exact ih1 j (by omega)
    · intro k hk
      rw [bitLoop_succ, memBit_memSetBit, if_neg (fun e => hk K (by omega) e.symm)]
      exact ih2 k (fun j hj => hk j (by omega))

theorem bitLoop_at (idx : Nat → Nat) (f : Memory → Nat → Bool) (N : Nat) (m : Memory)
    (hinj : ∀ j j', j < N → j' < N → idx j = idx j' → j = j')
    (hf : ∀ j, j < N → ∀ m' : Memory,
      (∀ k, (∀ j', j' < j → idx j' ≠ k) → memBit m' k = memBit m k) → f m' j = f m j)
    (j : Nat) (hj : j < N) :
    memBit (bitLoop idx f N m) (idx j) = f m j :=
  (bitLoop_upto idx f N m hinj hf N (Nat.le_refl N)).1 j hj

theorem bitLoop_frame (idx : Nat → Nat) (f : Memory → Nat → Bool) (N : Nat) (m : Memory)
    (hinj : ∀ j j', j < N → j' < N → idx j = idx j' → j = j')
    (hf : ∀ j, j < N → ∀ m' : Memory,
      (∀ k, (∀ j', j' < j → idx j' ≠ k) → memBit m' k = memBit m k) → f m' j = f m j)
    (k : Nat) (hk : ∀ j, j < N → idx j ≠ k) :
    memBit (bitLoop idx f N m) k = memBit m k :=
  (bitLoop_upto idx f N m hinj hf N (Nat.le_refl N)).2 k hk

end TurnTable

namespace TurnTable
namespace ComboBitTable

/-! ## The tableau as a grid of bits -/

theorem xBit_eq_cell (T : ComboBitTable) (i a : Nat) : T.xBit i a = T.cell a i := by
  unfold xBit cell cidx
  rw [getBit_eq]
  simp only [x, Nat.zero_add]

theorem zBit_eq_cell (T : ComboBitTable) (i a : Nat) :
    T.zBit i a = T.cell (T.height + a) i := by
  unfold zBit cell cidx
  rw [getBit_eq]
  simp only [z, Nat.add_mul, Nat.mul_comm T.height T.width]

theorem rBit_eq_cell (T : ComboBitTable) (i : Nat) : T.rBit i = T.cell (T.height * 2) i := by
  unfold rBit cell cidx
  rw [getBit_eq]
  simp only [r, Nat.zero_mul, Nat.add_zero, Nat.mul_comm T.height 2, Nat.mul_assoc,
    Nat.mul_comm T.height T.width, Nat.mul_left_comm 2 T.width T.height]

theorem x_setBit (T : ComboBitTable) (m : Memory) (j i : Nat) (b : Bool) :
    T.x.setBit m j i b = memSetBit m (cidx T.width j i) b := by
  rw [setBit_eq]
  simp only [x, cidx, Nat.zero_add]

theorem x_getBit (T : ComboBitTable) (m : Memory) (j i : Nat) :
    T.x.getBit m j i = memBit m (cidx T.width j i) := by
  rw [getBit_eq]
  simp only [x, cidx, Nat.zero_add]

theorem z_setBit (T : ComboBitTable) (m : Memory) (j i : Nat) (b : Bool) :
    T.z.setBit m j i b = memSetBit m (cidx T.width (T.height + j) i) b := by
  rw [setBit_eq]
  simp only [z, cidx, Nat.add_mul, Nat.mul_comm T.height T.width]

theorem z_getBit (T : ComboBitTable) (m : Memory) (j i : Nat) :
    T.z.getBit m j i = memBit m (cidx T.width (T.height + j) i) := by
  rw [getBit_eq]
  simp only [z, cidx, Nat.add_mul, Nat.mul_comm T.height T.width]

theorem r_setBit (T : ComboBitTable) (m : Memory) (i : Nat) (b : Bool) :
    T.r.setBit m 0 i b = memSetBit m (cidx T.width (T.height * 2) i) b := by
  rw [setBit_eq]
  simp only [r, cidx, Nat.zero_mul, Nat.add_zero, Nat.mul_comm T.height 2, Nat.mul_assoc,
    Nat.mul_comm T.height T.width, Nat.mul_left_comm 2 T.width T.height]

theorem all_setBit (T : ComboBitTable) (m : Memory) (ρ g : Nat) (b : Bool) :
    T.all.setBit m ρ g b = memSetBit m (cidx T.width ρ g) b := by
  rw [setBit_eq]
  simp only [all, cidx, Nat.zero_add]

theorem all_getBit (T : ComboBitTable) (m : Memory) (ρ g : Nat) :
    T.all.getBit m ρ g = memBit m (cidx T.width ρ g) := by
  rw [getBit_eq]
  simp only [all, cidx, Nat.zero_add]

theorem colAssign_eq (T : ComboBitTable) (dst src : Nat) (m : Memory) :
    T.all.colAssign dst src m
      = bitLoop (fun ρ => cidx T.width ρ dst) (fun m ρ => memBit m (cidx T.width ρ src))
          (T.height * 2 + 1) m := by
  unfold BitTableView.colAssign bitLoop
  simp only [all_setBit, all_getBit]
  rfl

theorem colClear_eq (T : ComboBitTable) (dst : Nat) (m : Memory) :
    T.all.colClear dst m
      = bitLoop (fun ρ => cidx T.width ρ dst) (fun _ _ => false) (T.height * 2 + 1) m := by
  unfold BitTableView.colClear bitLoop
  simp only [all_setBit]
  rfl

/-- `all.col(dst) = all.col(src)` on the grid. -/
theorem colAssign_cell (T : ComboBitTable) (dst src : Nat) (m : Memory)
    (hd : dst < 64 * T.width) (hs : src < 64 * T.width) (hds : dst ≠ src)
    (ρ g : Nat) (hg : g < 64 * T.width) :
    memBit (T.all.colAssign dst src m) (cidx T.width ρ g)
      = if g = dst ∧ ρ < T.height * 2 + 1 then memBit m (cidx T.width ρ src)
        else memBit m (cidx T.width ρ g) := by
  rw [colAssign_eq]
  have hinj : ∀ j j', j < T.height * 2 + 1 → j' < T.height * 2 + 1 →
      (fun ρ => cidx T.width ρ dst) j = (fun ρ => cidx T.width ρ dst) j' → j = j' :=
    fun j j' _ _ e => ((cidx_inj T.width j dst j' dst hd hd).1 e).1
  have hf : ∀ j, j < T.height * 2 + 1 → ∀ m' : Memory,
      (∀ k, (∀ j', j' < j → (fun ρ => cidx T.width ρ dst) j' ≠ k) → memBit m' k = memBit m k) →
      (fun m ρ => memBit m (cidx T.width ρ src)) m' j
        = (fun m ρ => memBit m (cidx T.width ρ src)) m j := by
    intro j _ m' hm
    exact hm _ (fun j' _ e => hds ((cidx_inj T.width j' dst j src hd hs).1 e).2)
  by_cases h : g = dst ∧ ρ < T.height * 2 + 1
  · rw [if_pos h]
    obtain ⟨rfl, hρ⟩ := h
    exact bitLoop_at _ _ _ m hinj hf ρ hρ
  · rw [if_neg h]
    apply bitLoop_frame _ _ _ m hinj hf
    intro j hj e
    have := (cidx_inj T.width j dst ρ g hd hg).1 e
    exact h ⟨this.2.symm, this.1 ▸ hj⟩

/-- `all.col(dst) = 0` on the grid. -/
theorem colClear_cell (T : ComboBitTable) (dst : Nat) (m : Memory)
    (hd : dst < 64 * T.width) (ρ g : Nat) (hg : g < 64 * T.width) :
    memBit (T.all.colClear dst m) (cidx T.width ρ g)
      = if g = dst ∧ ρ < T.height * 2 + 1 then false else memBit m (cidx T.width ρ g) := by
  rw [colClear_eq]
  have hinj : ∀ j j', j < T.height * 2 + 1 → j' < T.height * 2 + 1 →
      (fun ρ => cidx T.width ρ dst) j = (fun ρ => cidx T.width ρ dst) j' → j = j' :=
    fun j j' _ _ e => ((cidx_inj T.width j dst j' dst hd hd).1 e).1
  have hf : ∀ j, j < T.height * 2 + 1 → ∀ m' : Memory,
      (∀ k, (∀ j', j' < j → (fun ρ => cidx T.width ρ dst) j' ≠ k) → memBit m' k = memBit m k) →
      (fun (_ : Memory) (_ : Nat) => false) m' j = (fun (_ : Memory) (_ : Nat) => false) m j :=
    fun _ _ _ _ => rfl
  by_cases h : g = dst ∧ ρ < T.height * 2 + 1
  · rw [if_pos h]
    obtain ⟨rfl, hρ⟩ := h
    exact bitLoop_at _ _ _ m hinj hf ρ hρ
  · rw [if_neg h]
    apply bitLoop_frame _ _ _ m hinj hf
    intro j hj e
    have := (cidx_inj T.width j dst ρ g hd hg).1 e
    exact h ⟨this.2.symm, this.1 ▸ hj⟩

end ComboBitTable
end TurnTable

namespace TurnTable
namespace ComboBitTable

/-- The loop `for j < N: bit i of row b + j ^= bit k of row b + j` on the grid. -/
theorem xorCol_cell (W b i k N : Nat) (m : Memory) (hi : i < 64 * W) (hk : k < 64 * W)
    (hik : i ≠ k) (ρ g : Nat) (hg : g < 64 * W) :
    memBit (bitLoop (fun j => cidx W (b + j) i)
        (fun m j => memBit m (cidx W (b + j) i) ^^ memBit m (cidx W (b + j) k)) N m)
        (cidx W ρ g)
      = if g = i ∧ b ≤ ρ ∧ ρ < b + N then memBit m (cidx W ρ i) ^^ memBit m (cidx W ρ k)
        else memBit m (cidx W ρ g) := by
  have hinj : ∀ j j', j < N → j' < N →
      (fun j => cidx W (b + j) i) j = (fun j => cidx W (b + j) i) j' → j = j' := by
    intro j j' _ _ e
    have := ((cidx_inj W (b + j) i (b + j') i hi hi).1 e).1
    omega
  have hf : ∀ j, j < N → ∀ m' : Memory,
      (∀ q, (∀ j', j' < j → (fun j => cidx W (b + j) i) j' ≠ q) → memBit m' q = memBit m q) →
      (fun m j => memBit m (cidx W (b + j) i) ^^ memBit m (cidx W (b + j) k)) m' j
        = (fun m j => memBit m (cidx W (b + j) i) ^^ memBit m (cidx W (b + j) k)) m j := by
    intro j _ m' hm
    show (memBit m' _ ^^ memBit m' _) = (memBit m _ ^^ memBit m _)
    rw [hm _ (fun j' hj' e => by
        have := ((cidx_inj W (b + j') i (b + j) i hi hi).1 e).1
        omega),
      hm _ (fun j' _ e => hik ((cidx_inj W (b + j') i (b + j) k hi hk).1 e).2)]
  by_cases h : g = i ∧ b ≤ ρ ∧ ρ < b + N
  · rw [if_pos h]
    obtain ⟨rfl, h1, h2⟩ := h
    have := bitLoop_at _ _ _ m hinj hf (ρ - b) (by omega)
    simp only [Nat.add_sub_cancel' h1] at this
    exact this
  · rw [if_neg h]
    apply bitLoop_frame _ _ _ m hinj hf
    intro j hj e
    have := (cidx_inj W (b + j) i ρ g hi hg).1 e
    exact h ⟨this.2.symm, by omega, by omega⟩

theorem row_mult_data (T : ComboBitTable) (i k : Nat) :
    (T._row_mult i k).data
      = bitLoop (fun j => cidx T.width (T.height + j) i)
          (fun m j => memBit m (cidx T.width (T.height + j) i)
            ^^ memBit m (cidx T.width (T.height + j) k)) T.height
          (bitLoop (fun j => cidx T.width (0 + j) i)
            (fun m j => memBit m (cidx T.width (0 + j) i) ^^ memBit m (cidx T.width (0 + j) k))
            T.height
            (memSetBit T.data (cidx T.width (T.height * 2) i) (T._row_product_sign i k))) := by
  unfold _row_mult bitLoop _n
  simp only [x_setBit, x_getBit, z_setBit, z_getBit, r_setBit, Nat.zero_add]

@[simp] theorem row_mult_width (T : ComboBitTable) (i k : Nat) :
    (T._row_mult i k).width = T.width := rfl

@[simp] theorem row_mult_height (T : ComboBitTable) (i k : Nat) :
    (T._row_mult i k).height = T.height := rfl

/-- `_row_mult(i, k)` on the grid: column `i` takes the XOR of columns `i` and
`k` in the `x` and `z` rows and the value of `_row_product_sign(i, k)` in the
phase row; every other column is left alone. -/
theorem row_mult_cell (T : ComboBitTable) (i k : Nat) (hi : i < 64 * T.width)
    (hk : k < 64 * T.width) (hik : i ≠ k) (ρ g : Nat) (hg : g < 64 * T.width)
    (hρ : ρ ≤ T.height * 2) :
    (T._row_mult i k).cell ρ g
      = if g = i then
          (if ρ < T.height * 2 then (T.cell ρ i ^^ T.cell ρ k) else T._row_product_sign i k)
        else T.cell ρ g := by
  unfold cell
  rw [row_mult_width, row_mult_data, xorCol_cell _ _ _ _ _ _ hi hk hik _ _ hg,
    xorCol_cell _ _ _ _ _ _ hi hk hik _ _ hi, xorCol_cell _ _ _ _ _ _ hi hk hik _ _ hk,
    xorCol_cell _ _ _ _ _ _ hi hk hik _ _ hg]
  simp only [memBit_memSetBit, cidx_inj _ _ _ _ _ hi hi, cidx_inj _ _ _ _ _ hk hi,
    cidx_inj _ _ _ _ _ hg hi]
  have hki : ¬ k = i := fun e => hik e.symm
  simp only [hki, false_and, and_false, and_true, true_and, if_false, Nat.zero_le, Nat.zero_add]
  split_ifs <;> first | rfl | (exfalso; omega)

end ComboBitTable
end TurnTable

namespace TurnTable
namespace ComboBitTable

theorem foldl_add_congr (f g : Nat → Int) (n : Nat) (h : ∀ j, j < n → f j = g j) :
    (List.range n).foldl (fun t j => t + f j) 0 = (List.range n).foldl (fun t j => t + g j) 0 := by
  induction n with
  | zero => rfl
  | succ n ih =>
    rw [List.range_succ, List.foldl_append, List.foldl_append, ih (fun j hj => h j (by omega))]
    simp only [List.foldl_cons, List.foldl_nil]
    rw [h n (by omega)]

/-- The sign of a row product depends on the two columns it multiplies only. -/
theorem row_product_sign_congr (T T' : ComboBitTable) (hh : T'.height = T.height)
    (i k : Nat)
    (h : ∀ ρ, ρ ≤ T.height * 2 → T'.cell ρ i = T.cell ρ i ∧ T'.cell ρ k = T.cell ρ k) :
    T'._row_product_sign i k = T._row_product_sign i k := by
  unfold _row_product_sign _n
  have hsum : (List.range T.height).foldl
      (fun t j => t + pauli_product_phase (T'.xBit i j) (T'.zBit i j) (T'.xBit k j) (T'.zBit k j)) 0
      = (List.range T.height).foldl
      (fun t j => t + pauli_product_phase (T.xBit i j) (T.zBit i j) (T.xBit k j) (T.zBit k j)) 0 := by
    apply foldl_add_congr
    intro j hj
    simp only [xBit_eq_cell, zBit_eq_cell, hh]
    rw [(h j (by omega)).1, (h j (by omega)).2, (h (T.height + j) (by omega)).1,
      (h (T.height + j) (by omega)).2]
  simp only [hh, hsum, rBit_eq_cell]
  rw [(h (T.height * 2) (Nat.le_refl _)).1, (h (T.height * 2) (Nat.le_refl _)).2]

theorem measureStep_height (a p n : Nat) (T : ComboBitTable) (i : Nat) :
    (measureStep a p n T i).height = T.height := by
  unfold measureStep
  split <;> rfl

theorem measureStep_width (a p n : Nat) (T : ComboBitTable) (i : Nat) :
    (measureStep a p n T i).width = T.width := by
  unfold measureStep
  split <;> rfl

theorem measure_random_eq (T : ComboBitTable) (a p : Nat) (result : Bool) :
    T._measure_random a p result
      = (List.range (2 * T.height)).foldl (measureStep a p T.height)
          (measurePrep T a p result) := rfl

end ComboBitTable
end TurnTable

namespace TurnTable
namespace ComboBitTable

/-- The loop of `_measure_random` after `K` rounds, on the grid: each column
`g < K` other than `p` and `p + n` whose `X` bit on qubit `a` was set at loop
entry has been multiplied by column `p`, once; all other columns are as at loop
entry. -/
theorem measureLoop_cell (T0 : ComboBitTable) (a p n : Nat) (hp : p < 64 * T0.width)
    (ha : a < T0.height) :
    ∀ K, K ≤ 64 * T0.width →
      ((List.range K).foldl (measureStep a p n) T0).width = T0.width ∧
      ((List.range K).foldl (measureStep a p n) T0).height = T0.height ∧
      ∀ ρ g, ρ ≤ T0.height * 2 → g < 64 * T0.width →
        ((List.range K).foldl (measureStep a p n) T0).cell ρ g
          = if g < K ∧ T0.cell a g = true ∧ g ≠ p ∧ g ≠ p + n then
              (if ρ < T0.height * 2 then (T0.cell ρ g ^^ T0.cell ρ p)
                else T0._row_product_sign g p)
            else T0.cell ρ g := by
  intro K
  induction K with
  | zero =>
    intro _
    refine ⟨rfl, rfl, fun ρ g _ _ => ?_⟩
    rw [if_neg (by omega)]
    rfl
  | succ K ih =>
    intro hK
    obtain ⟨hw, hh, hc⟩ := ih (by omega)
    rw [List.range_succ, List.foldl_append]
    simp only [List.foldl_cons, List.foldl_nil]
    generalize (List.range K).foldl (measureStep a p n) T0 = TK at hw hh hc
    have hKw : K < 64 * T0.width := by omega
    -- columns `K` and `p` are still as at loop entry
    have hcolK : ∀ ρ, ρ ≤ T0.height * 2 → TK.cell ρ K = T0.cell ρ K := by
      intro ρ hρ
      rw [hc ρ K hρ hKw, if_neg (by omega)]
    have hcolp : ∀ ρ, ρ ≤ T0.height * 2 → TK.cell ρ p = T0.cell ρ p := by
      intro ρ hρ
      rw [hc ρ p hρ hp, if_neg (by simp)]
    refine ⟨by rw [measureStep_width, hw], by rw [measureStep_height, hh], ?_⟩
    intro ρ g hρ hg
    unfold measureStep
    rw [xBit_eq_cell, hcolK a (by omega)]
    by_cases hcond : (T0.cell a K && K != p && K != p + n) = true
    · rw [if_pos hcond]
      simp only [Bool.and_eq_true, bne_iff_ne, ne_eq] at hcond
      obtain ⟨⟨h1, h2⟩, h3⟩ := hcond
      rw [row_mult_cell TK K p (by rw [hw]; exact hKw) (by rw [hw]; exact hp) h2 ρ g
        (by rw [hw]; exact hg) (by rw [hh]; exact hρ)]
      by_cases hgK : g = K
      · subst hgK
        rw [if_pos rfl, hh, hcolK ρ hρ, hcolp ρ hρ,
          row_product_sign_congr T0 TK hh g p (fun ρ' hρ' => ⟨hcolK ρ' hρ', hcolp ρ' hρ'⟩),
          if_pos (⟨by omega, h1, h2, h3⟩ : g < g + 1 ∧ T0.cell a g = true ∧ g ≠ p ∧ g ≠ p + n)]
      · rw [if_neg hgK, hc ρ g hρ hg]
        have : g < K + 1 ↔ g < K := by omega
        simp only [this]
    · rw [if_neg hcond, hc ρ g hρ hg]
      by_cases hgK : g = K
      · subst hgK
        simp only [Bool.and_eq_true, bne_iff_ne, ne_eq, not_and] at hcond
        rw [if_neg (by omega), if_neg]
        rintro ⟨_, h1, h2, h3⟩
        exact hcond ⟨h1, h2⟩ h3
      · have : g < K + 1 ↔ g < K := by omega
        simp only [this]

end ComboBitTable
end TurnTable

namespace TurnTable
namespace ComboBitTable

@[simp] theorem measurePrep_width (T : ComboBitTable) (a p : Nat) (result : Bool) :
    (measurePrep T a p result).width = T.width := rfl

@[simp] theorem measurePrep_height (T : ComboBitTable) (a p : Nat) (result : Bool) :
    (measurePrep T a p result).height = T.height := rfl

theorem measure_random_width (T : ComboBitTable) (a p : Nat) (result : Bool)
    (ha : a < T.height) (hp : p < T.height) (hfit : 2 * T.height ≤ 64 * T.width) :
    (T._measure_random a p result).width = T.width := by
  rw [measure_random_eq]
  exact (measureLoop_cell (measurePrep T a p result) a p T.height
    (by rw [measurePrep_width]; omega) ha (2 * T.height) hfit).1

theorem measure_random_height (T : ComboBitTable) (a p : Nat) (result : Bool)
    (ha : a < T.height) (hp : p < T.height) (hfit : 2 * T.height ≤ 64 * T.width) :
    (T._measure_random a p result).height = T.height := by
  rw [measure_random_eq]
  exact (measureLoop_cell (measurePrep T a p result) a p T.height
    (by rw [measurePrep_width]; omega) ha (2 * T.height) hfit).2.1

end ComboBitTable
end TurnTable

namespace TurnTable

/-! ## Parities -/

theorem xorFold_succ (n : Nat) (f : Nat → Bool) : xorFold (n + 1) f = (xorFold n f ^^ f n) := by
  simp [xorFold, List.range_succ, List.foldl_append]

theorem xorFold_zero (f : Nat → Bool) : xorFold 0 f = false := rfl

theorem xorFold_congr (n : Nat) (f g : Nat → Bool) (h : ∀ j, j < n → f j = g j) :
    xorFold n f = xorFold n g := by
  induction n with
  | zero => rfl
  | succ n ih =>
    rw [xorFold_succ, xorFold_succ, ih (fun j hj => h j (by omega)), h n (by omega)]

theorem xorFold_xor (n : Nat) (f g : Nat → Bool) :
    xorFold n (fun j => f j ^^ g j) = (xorFold n f ^^ xorFold n g) := by
  induction n with
  | zero => rfl
  | succ n ih =>
    rw [xorFold_succ, xorFold_succ, xorFold_succ, ih]
    cases xorFold n f <;> cases xorFold n g <;> cases f n <;> cases g n <;> rfl

theorem xorFold_false (n : Nat) : xorFold n (fun _ => false) = false := by
  induction n with
  | zero => rfl
  | succ n ih => rw [xorFold_succ, ih]; rfl

theorem xorFold_and (n : Nat) (c : Bool) (f : Nat → Bool) :
    xorFold n (fun j => c && f j) = (c && xorFold n f) := by
  induction n with
  | zero => cases c <;> rfl
  | succ n ih =>
    rw [xorFold_succ, xorFold_succ, ih]
    cases c <;> cases xorFold n f <;> cases f n <;> rfl

theorem xorFold_single (n a : Nat) (f : Nat → Bool) :
    xorFold n (fun j => decide (j = a) && f j) = (decide (a < n) && f a) := by
  induction n with
  | zero => simp [xorFold_zero]
  | succ n ih =>
    rw [xorFold_succ, ih]
    by_cases h1 : a < n
    · have h2 : ¬ n = a := by omega
      have h3 : a < n + 1 := by omega
      simp [h1, h2, h3]
    · by_cases h2 : n = a
      · subst h2
        simp
      · have h3 : ¬ a < n + 1 := by omega
        simp [h1, h2, h3]

/-- Two functions that differ at `c` and `t` only, with the same parity there,
have the same parity. -/
theorem xorFold_two (n c t : Nat) (f g : Nat → Bool) (hc : c < n) (ht : t < n) (hct : c ≠ t)
    (hoff : ∀ j, j < n → j ≠ c → j ≠ t → f j = g j) (hon : (f c ^^ f t) = (g c ^^ g t)) :
    xorFold n f = xorFold n g := by
  have split : ∀ h : Nat → Bool, xorFold n h
      = ((xorFold n (fun j => decide (j = c) && h j) ^^ xorFold n (fun j => decide (j = t) && h j))
        ^^ xorFold n (fun j => !(decide (j = c) || decide (j = t)) && h j)) := by
    intro h
    rw [← xorFold_xor, ← xorFold_xor]
    apply xorFold_congr
    intro j _
    by_cases h1 : j = c
    · have h2 : ¬ j = t := fun e => hct (h1.symm.trans e)
      simp [h1, h2, hct]
    · have hct' : ¬ t = c := fun e => hct e.symm
      by_cases h2 : j = t
      · subst h2
        simp [hct']
      · simp [h1, h2]
  rw [split f, split g, xorFold_single, xorFold_single, xorFold_single, xorFold_single]
  have hrest : xorFold n (fun j => !(decide (j = c) || decide (j = t)) && f j)
      = xorFold n (fun j => !(decide (j = c) || decide (j = t)) && g j) := by
    apply xorFold_congr
    intro j hj
    by_cases h1 : j = c
    · simp [h1]
    · by_cases h2 : j = t
      · simp [h2]
      · rw [hoff j hj h1 h2]
  rw [hrest]
  simp only [hc, ht, decide_True, Bool.true_and]
  rw [hon]

/-! ## Symplectic inner products of Pauli strings -/

theorem sympV_congr (n : Nat) (x1 z1 x2 z2 x1' z1' x2' z2' : Nat → Bool)
    (h1 : ∀ j, j < n → x1 j = x1' j) (h2 : ∀ j, j < n → z1 j = z1' j)
    (h3 : ∀ j, j < n → x2 j = x2' j) (h4 : ∀ j, j < n → z2 j = z2' j) :
    sympV n x1 z1 x2 z2 = sympV n x1' z1' x2' z2' := by
  apply xorFold_congr
  intro j hj
  show ((x1 j && z2 j) ^^ (z1 j && x2 j)) = ((x1' j && z2' j) ^^ (z1' j && x2' j))
  rw [h1 j hj, h2 j hj, h3 j hj, h4 j hj]

theorem sympV_self (n : Nat) (x z : Nat → Bool) : sympV n x z x z = false := by
  unfold sympV
  rw [← xorFold_false n]
  apply xorFold_congr
  intro j _
  cases x j <;> cases z j <;> rfl

theorem sympV_comm (n : Nat) (x1 z1 x2 z2 : Nat → Bool) :
    sympV n x1 z1 x2 z2 = sympV n x2 z2 x1 z1 := by
  apply xorFold_congr
  intro j _
  show ((x1 j && z2 j) ^^ (z1 j && x2 j)) = ((x2 j && z1 j) ^^ (z2 j && x1 j))
  cases x1 j <;> cases z1 j <;> cases x2 j <;> cases z2 j <;> rfl

/-- The right operand multiplied by `c` copies of a third string. -/
theorem sympV_mix_right (n : Nat) (c : Bool) (x1 z1 x2 z2 xs zs : Nat → Bool) :
    sympV n x1 z1 (fun j => x2 j ^^ (c && xs j)) (fun j => z2 j ^^ (c && zs j))
      = (sympV n x1 z1 x2 z2 ^^ (c && sympV n x1 z1 xs zs)) := by
  unfold sympV
  rw [← xorFold_and, ← xorFold_xor]
  apply xorFold_congr
  intro j _
  show ((x1 j && (z2 j ^^ (c && zs j))) ^^ (z1 j && (x2 j ^^ (c && xs j))))
    = (((x1 j && z2 j) ^^ (z1 j && x2 j)) ^^ (c && ((x1 j && zs j) ^^ (z1 j && xs j))))
  cases c <;> cases x1 j <;> cases z1 j <;> cases x2 j <;> cases z2 j <;> cases xs j <;>
    cases zs j <;> rfl

theorem sympV_mix_left (n : Nat) (c : Bool) (x1 z1 x2 z2 xs zs : Nat → Bool) :
    sympV n (fun j => x1 j ^^ (c && xs j)) (fun j => z1 j ^^ (c && zs j)) x2 z2
      = (sympV n x1 z1 x2 z2 ^^ (c && sympV n xs zs x2 z2)) := by
  rw [sympV_comm, sympV_mix_right, sympV_comm n x2 z2 x1 z1, sympV_comm n x2 z2 xs zs]

/-- Against the string `Z` on qubit `a`, the product is the `X` bit on `a`. -/
theorem sympV_Z_right (n a : Nat) (ha : a < n) (x1 z1 : Nat → Bool) :
    sympV n x1 z1 (fun _ => false) (fun j => decide (j = a)) = x1 a := by
  unfold sympV
  have : xorFold n (fun j => (x1 j && decide (j = a)) ^^ (z1 j && false))
      = xorFold n (fun j => decide (j = a) && x1 j) := by
    apply xorFold_congr
    intro j _
    cases x1 j <;> cases z1 j <;> cases decide (j = a) <;> rfl
  rw [this, xorFold_single]
  simp [ha]

theorem sympV_Z_left (n a : Nat) (ha : a < n) (x2 z2 : Nat → Bool) :
    sympV n (fun _ => false) (fun j => decide (j = a)) x2 z2 = x2 a := by
  rw [sympV_comm, sympV_Z_right n a ha]

end TurnTable

namespace TurnTable

theorem sum_mod_two_eq_xorFold (n : Nat) (f : Nat → Nat) (g : Nat → Bool)
    (h : ∀ j, f j % 2 = (g j).toNat) :
    ((List.range n).map f).sum % 2 = (xorFold n g).toNat := by
  induction n with
  | zero => rfl
  | succ n ih =>
    rw [List.range_succ, List.map_append, List.sum_append, xorFold_succ, Nat.add_mod, ih]
    simp only [List.map_cons, List.map_nil, List.sum_cons, List.sum_nil, Nat.add_zero]
    rw [h n]
    cases xorFold n g <;> cases g n <;> rfl

namespace ComboBitTable

/-- The sum of the claim, modulo 2, is the parity `sp`. -/
theorem symplectic_eq_sp (T : ComboBitTable) (i k : Nat) :
    T.symplectic i k = (T.sp i k).toNat := by
  unfold symplectic sp sympV _n
  apply sum_mod_two_eq_xorFold
  intro j
  cases T.xBit i j <;> cases T.zBit k j <;> cases T.zBit i j <;> cases T.xBit k j <;> rfl

theorem symplectic_eq_zero_iff (T : ComboBitTable) (i k : Nat) :
    T.symplectic i k = 0 ↔ T.sp i k = false := by
  rw [symplectic_eq_sp]
  cases T.sp i k <;> simp

theorem symplectic_eq_one_iff (T : ComboBitTable) (i k : Nat) :
    T.symplectic i k = 1 ↔ T.sp i k = true := by
  rw [symplectic_eq_sp]
  cases T.sp i k <;> simp

/-! ## The gates bit by bit -/

theorem xBit_eq_xWord (T : ComboBitTable) (g q : Nat) :
    T.xBit g q = (T.xWord q (g / 64)).testBit (g % 64) := rfl

theorem zBit_eq_zWord (T : ComboBitTable) (g q : Nat) :
    T.zBit g q = (T.zWord q (g / 64)).testBit (g % 64) := rfl

theorem rBit_eq_rWord (T : ComboBitTable) (g : Nat) :
    T.rBit g = (T.rWord (g / 64)).testBit (g % 64) := by
  unfold rBit rWord BitTableView.getBit
  simp only [Nat.zero_mul, Nat.add_zero]

theorem hadamard_xBit (T : ComboBitTable) (t : Nat) (ht : t < T.height) (g q : Nat)
    (hg : g < 64 * T.width) (hq : q < T.height) :
    (T.hadamard t).xBit g q = if q = t then T.zBit g t else T.xBit g q := by
  have hw : g / 64 < T.width := by omega
  by_cases h : q = t
  · subst h
    rw [if_pos rfl, xBit_eq_xWord, hadamard_xWord T q ht _ hw, zBit_eq_zWord]
  · rw [if_neg h, xBit_eq_xWord, hadamard_xWord_ne T t q ht hq h _ hw, xBit_eq_xWord]

theorem hadamard_zBit (T : ComboBitTable) (t : Nat) (ht : t < T.height) (g q : Nat)
    (hg : g < 64 * T.width) (hq : q < T.height) :
    (T.hadamard t).zBit g q = if q = t then T.xBit g t else T.zBit g q := by
  have hw : g / 64 < T.width := by omega
  by_cases h : q = t
  · subst h
    rw [if_pos rfl, zBit_eq_zWord, hadamard_zWord T q ht _ hw, xBit_eq_xWord]
  · rw [if_neg h, zBit_eq_zWord, hadamard_zWord_ne T t q ht hq h _ hw, zBit_eq_zWord]

theorem phase_xBit (T : ComboBitTable) (t : Nat) (ht : t < T.height) (g q : Nat)
    (hg : g < 64 * T.width) (hq : q < T.height) :
    (T.phase t).xBit g q = T.xBit g q := by
  have hw : g / 64 < T.width := by omega
  rw [xBit_eq_xWord, phase_xWord T t q ht hq _ hw, xBit_eq_xWord]

theorem phase_zBit (T : ComboBitTable) (t : Nat) (ht : t < T.height) (g q : Nat)
    (hg : g < 64 * T.width) (hq : q < T.height) :
    (T.phase t).zBit g q = if q = t then (T.zBit g t ^^ T.xBit g t) else T.zBit g q := by
  have hw : g / 64 < T.width := by omega
  by_cases h : q = t
  · subst h
    rw [if_pos rfl, zBit_eq_zWord, phase_zWord T q ht _ hw, Nat.testBit_xor, zBit_eq_zWord,
      xBit_eq_xWord]
  · rw [if_neg h, zBit_eq_zWord, phase_zWord_ne T t q ht hq h _ hw, zBit_eq_zWord]

theorem cnot_xBit (T : ComboBitTable) (c t : Nat) (hc : c < T.height) (ht : t < T.height)
    (hct : c ≠ t) (g q : Nat) (hg : g < 64 * T.width) (hq : q < T.height) :
    (T.cnot c t).xBit g q = if q = t then (T.xBit g t ^^ T.xBit g c) else T.xBit g q := by
  have hw : g / 64 < T.width := by omega
  by_cases h : q = t
  · subst h
    rw [if_pos rfl, xBit_eq_xWord, cnot_xWord_target T c q hc ht hct _ hw, Nat.testBit_xor,
      xBit_eq_xWord, xBit_eq_xWord]
  · rw [if_neg h, xBit_eq_xWord, cnot_xWord_ne T c t q hc ht hct hq h _ hw, xBit_eq_xWord]

theorem cnot_zBit (T : ComboBitTable) (c t : Nat) (hc : c < T.height) (ht : t < T.height)
    (hct : c ≠ t) (g q : Nat) (hg : g < 64 * T.width) (hq : q < T.height) :
    (T.cnot c t).zBit g q = if q = c then (T.zBit g c ^^ T.zBit g t) else T.zBit g q := by
  have hw : g / 64 < T.width := by omega
  by_cases h : q = c
  · subst h
    rw [if_pos rfl, zBit_eq_zWord, cnot_zWord_control T q t hc ht hct _ hw, Nat.testBit_xor,
      zBit_eq_zWord, zBit_eq_zWord]
  · rw [if_neg h, zBit_eq_zWord, cnot_zWord_ne T c t q hc ht hct hq h _ hw, zBit_eq_zWord]

/-! ## The gates preserve symplectic inner products -/

theorem hadamard_sp (T : ComboBitTable) (t : Nat) (ht : t < T.height) (i k : Nat)
    (hi : i < 64 * T.width) (hk : k < 64 * T.width) :
    (T.hadamard t).sp i k = T.sp i k := by
  unfold sp sympV
  rw [hadamard_height]
  apply xorFold_congr
  intro j hj
  simp only [hadamard_xBit T t ht _ j hi hj, hadamard_xBit T t ht _ j hk hj,
    hadamard_zBit T t ht _ j hi hj, hadamard_zBit T t ht _ j hk hj]
  by_cases h : j = t
  · subst h
    simp only [if_pos]
    cases T.xBit i j <;> cases T.zBit i j <;> cases T.xBit k j <;> cases T.zBit k j <;> rfl
  · simp only [if_neg h]

theorem phase_sp (T : ComboBitTable) (t : Nat) (ht : t < T.height) (i k : Nat)
    (hi : i < 64 * T.width) (hk : k < 64 * T.width) :
    (T.phase t).sp i k = T.sp i k := by
  unfold sp sympV
  rw [phase_height]
  apply xorFold_congr
  intro j hj
  simp only [phase_xBit T t ht _ j hi hj, phase_xBit T t ht _ j hk hj,
    phase_zBit T t ht _ j hi hj, phase_zBit T t ht _ j hk hj]
  by_cases h : j = t
  · subst h
    simp only [if_pos]
    cases T.xBit i j <;> cases T.zBit i j <;> cases T.xBit k j <;> cases T.zBit k j <;> rfl
  · simp only [if_neg h]

theorem cnot_sp (T : ComboBitTable) (c t : Nat) (hc : c < T.height) (ht : t < T.height)
    (hct : c ≠ t) (i k : Nat) (hi : i < 64 * T.width) (hk : k < 64 * T.width) :
    (T.cnot c t).sp i k = T.sp i k := by
  unfold sp sympV
  rw [cnot_height]
  apply xorFold_two T.height c t _ _ hc ht hct
  · intro j hj h1 h2
    simp only [cnot_xBit T c t hc ht hct _ j hi hj, cnot_xBit T c t hc ht hct _ j hk hj,
      cnot_zBit T c t hc ht hct _ j hi hj, cnot_zBit T c t hc ht hct _ j hk hj, if_neg h1,
      if_neg h2]
  · simp only [cnot_xBit T c t hc ht hct _ _ hi hc, cnot_xBit T c t hc ht hct _ _ hk hc,
      cnot_zBit T c t hc ht hct _ _ hi hc, cnot_zBit T c t hc ht hct _ _ hk hc,
      cnot_xBit T c t hc ht hct _ _ hi ht, cnot_xBit T c t hc ht hct _ _ hk ht,
      cnot_zBit T c t hc ht hct _ _ hi ht, cnot_zBit T c t hc ht hct _ _ hk ht,
      if_pos, if_neg hct, if_neg (Ne.symm hct)]
    cases T.xBit i c <;> cases T.zBit i c <;> cases T.xBit k c <;> cases T.zBit k c <;>
      cases T.xBit i t <;> cases T.zBit i t <;> cases T.xBit k t <;> cases T.zBit k t <;> rfl

end ComboBitTable

@[simp] theorem Gate.apply_width (T : ComboBitTable) (g : Gate) :
    (g.apply T).width = T.width := by
  cases g <;> rfl

@[simp] theorem Gate.apply_height (T : ComboBitTable) (g : Gate) :
    (g.apply T).height = T.height := by
  cases g <;> rfl

/-- Every in-range gate call preserves every symplectic inner product. -/
theorem Gate.apply_sp (T : ComboBitTable) (g : Gate) (hg : g.inRange T.height = true)
    (i k : Nat) (hi : i < 64 * T.width) (hk : k < 64 * T.width) :
    (g.apply T).sp i k = T.sp i k := by
  cases g with
  | hadamard t =>
    simp only [Gate.inRange, decide_eq_true_eq] at hg
    exact ComboBitTable.hadamard_sp T t hg i k hi hk
  | phase t =>
    simp only [Gate.inRange, decide_eq_true_eq] at hg
    exact ComboBitTable.phase_sp T t hg i k hi hk
  | cnot c t =>
    simp only [Gate.inRange, Bool.and_eq_true, decide_eq_true_eq] at hg
    exact ComboBitTable.cnot_sp T c t hg.1.1 hg.1.2 hg.2 i k hi hk

theorem applyGates_height (gs : List Gate) (T : ComboBitTable) :
    (applyGates T gs).height = T.height := by
  induction gs generalizing T with
  | nil => rfl
  | cons g gs ih =>
    show (applyGates (g.apply T) gs).height = T.height
    rw [ih, Gate.apply_height]

theorem applyGates_width (gs : List Gate) (T : ComboBitTable) :
    (applyGates T gs).width = T.width := by
  induction gs generalizing T with
  | nil => rfl
  | cons g gs ih =>
    show (applyGates (g.apply T) gs).width = T.width
    rw [ih, Gate.apply_width]

theorem applyGates_sp (gs : List Gate) (T : ComboBitTable)
    (hgs : ∀ g, g ∈ gs → g.inRange T.height = true)
    (i k : Nat) (hi : i < 64 * T.width) (hk : k < 64 * T.width) :
    (applyGates T gs).sp i k = T.sp i k := by
  induction gs generalizing T with
  | nil => rfl
  | cons g gs ih =>
    show (applyGates (g.apply T) gs).sp i k = T.sp i k
    rw [ih (g.apply T) (fun g' hg' => by
        rw [Gate.apply_height]
        exact hgs g' (List.mem_cons_of_mem g hg'))
      (by rw [Gate.apply_width]; exact hi) (by rw [Gate.apply_width]; exact hk),
      Gate.apply_sp T g (hgs g (List.mem_cons_self g gs)) i k hi hk]

end TurnTable

namespace TurnTable
namespace ComboBitTable

theorem sp_self (T : ComboBitTable) (i : Nat) : T.sp i i = false := sympV_self _ _ _

theorem sp_comm (T : ComboBitTable) (i k : Nat) : T.sp i k = T.sp k i := sympV_comm _ _ _ _ _

end ComboBitTable
end TurnTable

namespace TurnTable

/-- C6: on a tableau whose rows hold the `2n` generator bits, if all stabilizer
rows `n .. 2n - 1` have pairwise symplectic inner product 0, they still have
after any finite sequence of `hadamard`, `phase` and `cnot` calls with in-range
qubits and control different from target. -/
theorem stabilizers_commute_after_gates (T : ComboBitTable) (gs : List Gate)
    (hfit : 2 * T.height ≤ 64 * T.width)
    (hgs : ∀ g, g ∈ gs → g.inRange T.height = true)
    (hstab : ∀ i, i < T.height → ∀ k, k < T.height →
      T.symplectic (T.height + i) (T.height + k) = 0) :
    ∀ i, i < T.height → ∀ k, k < T.height →
      (applyGates T gs).symplectic (T.height + i) (T.height + k) = 0 := by
  intro i hi k hk
  rw [ComboBitTable.symplectic_eq_zero_iff,
    applyGates_sp gs T hgs _ _ (by omega) (by omega),
    ← ComboBitTable.symplectic_eq_zero_iff]
  exact hstab i hi k hk

/-- Witness of C6: the two stabilizers of the two-qubit identity state commute,
and still do after `hadamard(0); cnot(0, 1); phase(1); cnot(1, 0)`. -/
theorem stabilizers_commute_after_gates_witness :
    (identity 1 2).symplectic 2 3 = 0 ∧
    (applyGates (identity 1 2)
      [Gate.hadamard 0, Gate.cnot 0 1, Gate.phase 1, Gate.cnot 1 0]).symplectic 2 3 = 0 :=
  ⟨by decide, stabilizers_commute_after_gates (identity 1 2)
    [Gate.hadamard 0, Gate.cnot 0 1, Gate.phase 1, Gate.cnot 1 0]
    (by decide) (by decide) (by decide) 0 (by decide) 1 (by decide)⟩

/-- C7: on a tableau whose rows hold the `2n` generator bits, each in-range
call of `hadamard`, `phase` or `cnot` (control different from target) preserves
the symplectic inner product of every pair of generator rows; in particular a
destabilizer `i` and its stabilizer `i + n` with inner product 1 keep it. -/
theorem gate_preserves_symplectic (T : ComboBitTable) (g : Gate)
    (hfit : 2 * T.height ≤ 64 * T.width) (hg : g.inRange T.height = true) :
    (∀ i, i < 2 * T.height → ∀ k, k < 2 * T.height →
      (g.apply T).symplectic i k = T.symplectic i k) ∧
    (∀ i, i < T.height → T.symplectic i (i + T.height) = 1 →
      (g.apply T).symplectic i (i + T.height) = 1) := by
  have key : ∀ i, i < 2 * T.height → ∀ k, k < 2 * T.height →
      (g.apply T).symplectic i k = T.symplectic i k := by
    intro i hi k hk
    rw [ComboBitTable.symplectic_eq_sp, ComboBitTable.symplectic_eq_sp,
      Gate.apply_sp T g hg i k (by omega) (by omega)]
  refine ⟨key, fun i hi h => ?_⟩
  rw [key i (by omega) (i + T.height) (by omega)]
  exact h

/-- Witness of C7: `cnot(0, 1)` on the two-qubit identity state keeps the
inner product 1 of destabilizer 1 and stabilizer 3. -/
theorem gate_preserves_symplectic_witness :
    ((Gate.cnot 0 1).apply (identity 1 2)).symplectic 1 3 = 1 :=
  (gate_preserves_symplectic (identity 1 2) (Gate.cnot 0 1) (by decide) (by decide)).2 1
    (by decide) (by decide)

end TurnTable

namespace TurnTable
namespace ComboBitTable

/-! ## `_measure_random` as the source writes it -/

/-- C8, evaluated on the one-qubit tableau `plusState` (destabilizer `Z0`,
stabilizer `X0`, phases 0; buffer words `2, 1, 0`) for
`_measure_random(0, 0, true)`. Stabilizer row 1 has its `X` bit on qubit 0 set
before the call. After it the buffer words are `1, 0, 1` and the word after the
phase row is `1`: the word store of line 160 has landed on the phase word and
that of line 161 past the table. Stabilizer row 1 has no `Z` bit on qubit 0 and
phase bit 0, where C8 has `Z` on qubit 0 with phase bit `result`, and row 0 has
phase bit 1 where row 1 held 0. In rows of 64 words (`plusState64`) the two
stores land in word 1 of the `z` row and of the phase row (buffer words 65 and
129), which hold no generator bit, and row 1 again has no `Z` bit and phase
bit 0. -/
theorem measure_random_rows_on_plusState :
    plusState.xBit 1 0 = true ∧ plusState.zBit 1 0 = false ∧ plusState.rBit 1 = false ∧
    (plusState._measure_random 0 0 true).data 0 = 1 ∧
    (plusState._measure_random 0 0 true).data 1 = 0 ∧
    (plusState._measure_random 0 0 true).data 2 = 1 ∧
    (plusState._measure_random 0 0 true).data 3 = 1 ∧
    (plusState._measure_random 0 0 true).xBit 0 0 = true ∧
    (plusState._measure_random 0 0 true).zBit 0 0 = false ∧
    (plusState._measure_random 0 0 true).rBit 0 = true ∧
    (plusState._measure_random 0 0 true).xBit 1 0 = false ∧
    (plusState._measure_random 0 0 true).zBit 1 0 = false ∧
    (plusState._measure_random 0 0 true).rBit 1 = false ∧
    plusState64.xBit 1 0 = true ∧
    (plusState64._measure_random 0 0 true).data 0 = 1 ∧
    (plusState64._measure_random 0 0 true).data 64 = 0 ∧
    (plusState64._measure_random 0 0 true).data 65 = 1 ∧
    (plusState64._measure_random 0 0 true).data 128 = 0 ∧
    (plusState64._measure_random 0 0 true).data 129 = 1 ∧
    (plusState64._measure_random 0 0 true).xBit 0 0 = true ∧
    (plusState64._measure_random 0 0 true).zBit 0 0 = false ∧
    (plusState64._measure_random 0 0 true).rBit 0 = false ∧
    (plusState64._measure_random 0 0 true).xBit 1 0 = false ∧
    (plusState64._measure_random 0 0 true).zBit 1 0 = false ∧
    (plusState64._measure_random 0 0 true).rBit 1 = false := by
  decide

/-- C9, evaluated on `plusState` for `_measure_random(0, 0, true)`. Before the
call the pairing invariants hold (rows 0 and 1 have symplectic inner
product 1, the one stabilizer row has product 0 with itself) and stabilizer
row 1 has its `X` bit on qubit 0 set. After the call rows 0 and 1 have
symplectic inner product 0: row 0 is `X0` and row 1, which the word store of
line 160 leaves without a `Z` bit, is the identity string. The same holds in
rows of 64 words (`plusState64`). -/
theorem measure_random_pairing_on_plusState :
    plusState.symplectic 0 1 = 1 ∧ plusState.symplectic 1 1 = 0 ∧
    plusState.xBit 1 0 = true ∧
    (plusState._measure_random 0 0 true).symplectic 0 1 = 0 ∧
    plusState64.symplectic 0 1 = 1 ∧ plusState64.symplectic 1 1 = 0 ∧
    plusState64.xBit 1 0 = true ∧
    (plusState64._measure_random 0 0 true).symplectic 0 1 = 0 := by
  decide

end ComboBitTable
end TurnTable

namespace TurnTable

/-! ## Complement of a masked xor -/

theorem testBit_ones64 (k : Nat) : ones64.testBit k = decide (k < 64) := by
  unfold ones64
  exact Nat.testBit_two_pow_sub_one 64 k

theorem testBit_not64 (w k : Nat) : (not64 w).testBit k = (w.testBit k ^^ decide (k < 64)) := by
  unfold not64
  rw [Nat.testBit_xor, testBit_ones64]

/-- On a 64-bit word `not64` is the complement `2 ^ 64 - 1 - w`. -/
theorem not64_eq_sub (w : Nat) (hw : w < 2 ^ 64) : not64 w = 2 ^ 64 - 1 - w := by
  apply Nat.eq_of_testBit_eq
  intro k
  have h : 2 ^ 64 - 1 - w = 2 ^ 64 - (w + 1) := by omega
  rw [testBit_not64, h, Nat.testBit_two_pow_sub_succ hw]
  by_cases hk : k < 64
  · simp [hk]
  · have hlt : w < 2 ^ k :=
      Nat.lt_of_lt_of_le hw (Nat.pow_le_pow_right (by decide) (by omega))
    simp [hk, Nat.testBit_lt_two_pow hlt]

theorem not64_not64 (w : Nat) : not64 (not64 w) = w := by
  unfold not64
  rw [Nat.xor_assoc, Nat.xor_self, Nat.xor_zero]

theorem xorAssignXor_eq_loop (v : BitTableView) (e : BitTableXor) (m : Memory) :
    v.xorAssignXor e m = xorLoop v.data (fun m i => e.word m i) v.total m := rfl

theorem xorAssignXorIntersection_eq_loop (v : BitTableView) (e : BitTableXorIntersection)
    (m : Memory) :
    v.xorAssignXorIntersection e m = xorLoop v.data (fun m i => e.word m i) v.total m := rfl

/-- C18: for every masked-xor expression `e`, buffer and word index, the word
the evaluator of `operator^=(const BitTableXor&)` XORs in for `~e` is the
complement, in each of its 64 bits, of the word it XORs in for `e`
(`t1 ^ t2 ^ ~mask = ~(t1 ^ t2 ^ mask)`), and likewise for the xor factor of
`operator^=(const BitTableXorIntersection&)`; `operator~` keeps both operand
views, it touches no buffer word, and `~~e = e`. -/
theorem not_masked_xor (e : BitTableXor) (a : BitTableIntersection) (v : BitTableView)
    (m : Memory) (i : Nat) :
    v.xorAssignXor e m = xorLoop v.data (fun m i => e.word m i) v.total m ∧
    e.not.word m i = not64 (e.word m i) ∧
    (∀ k, k < 64 → (e.not.word m i).testBit k = !(e.word m i).testBit k) ∧
    (e.word m i < 2 ^ 64 → e.not.word m i = 2 ^ 64 - 1 - e.word m i) ∧
    (BitTableXorIntersection.mk a e.not).word m i
      = (m (a.t1.data + i) &&& m (a.t2.data + i) &&& not64 (e.word m i)) ∧
    e.not.t1 = e.t1 ∧ e.not.t2 = e.t2 ∧
    e.not.not = e := by
  have hword : e.not.word m i = not64 (e.word m i) := by
    show m (e.t1.data + i) ^^^ m (e.t2.data + i) ^^^ (e.mask ^^^ ones64)
      = m (e.t1.data + i) ^^^ m (e.t2.data + i) ^^^ e.mask ^^^ ones64
    exact (Nat.xor_assoc _ _ _).symm
  refine ⟨rfl, hword, ?_, ?_, ?_, rfl, rfl, ?_⟩
  · intro k hk
    rw [hword, testBit_not64]
    simp [hk]
  · intro hw
    rw [hword, not64_eq_sub _ hw]
  · show _ &&& _ &&& (e.not.word m i) = _
    rw [hword]
  · cases e with
    | mk t1 t2 mask =>
      show BitTableXor.mk t1 t2 (not64 (not64 mask)) = BitTableXor.mk t1 t2 mask
      rw [not64_not64]

/-- Witness of C18: the expression `x.row(1) ^ z.row(1)` of `cnot(0, 1)` on
`czState`, whose word is `2 ^ 12 ^ 0 = 14`, and its complement. -/
theorem not_masked_xor_witness :
    ((czState.x.row 1).xor (czState.z.row 1)).word czState.data 0 = 14 ∧
    ((czState.x.row 1).xor (czState.z.row 1)).not.word czState.data 0 = 2 ^ 64 - 1 - 14 ∧
    ((czState.x.row 1).xor (czState.z.row 1)).not.not = (czState.x.row 1).xor (czState.z.row 1) := by
  have h := not_masked_xor ((czState.x.row 1).xor (czState.z.row 1))
    ((czState.x.row 0).and (czState.z.row 1)) czState.r czState.data 0
  have h14 : ((czState.x.row 1).xor (czState.z.row 1)).word czState.data 0 = 14 := by decide
  refine ⟨h14, ?_, h.2.2.2.2.2.2.2⟩
  rw [h.2.2.2.1 (by rw [h14]; decide), h14]

end TurnTable

namespace TurnTable

/-! ## Parity of the accumulated phase -/

theorem pauli_product_phase_parity (x1 z1 x2 z2 : Bool) :
    pauli_product_phase x1 z1 x2 z2 % 2 = (((x1 && z2) ^^ (z1 && x2)).toNat : Int) := by
  cases x1 <;> cases z1 <;> cases x2 <;> cases z2 <;> decide

theorem pauli_product_phase_ne_zero_iff (x1 z1 x2 z2 : Bool) :
    pauli_product_phase x1 z1 x2 z2 ≠ 0 ↔ ((x1 && z2) ^^ (z1 && x2)) = true := by
  cases x1 <;> cases z1 <;> cases x2 <;> cases z2 <;> decide

theorem pauli_product_phase_antisymm (x1 z1 x2 z2 : Bool) :
    pauli_product_phase x1 z1 x2 z2 = -pauli_product_phase x2 z2 x1 z1 := by
  cases x1 <;> cases z1 <;> cases x2 <;> cases z2 <;> decide

theorem foldl_add_parity (n : Nat) (f : Nat → Int) (g : Nat → Bool)
    (h : ∀ j, f j % 2 = ((g j).toNat : Int)) :
    (List.range n).foldl (fun t j => t + f j) 0 % 2 = ((xorFold n g).toNat : Int) := by
  induction n with
  | zero => rfl
  | succ n ih =>
    rw [List.range_succ, List.foldl_append, xorFold_succ]
    simp only [List.foldl_cons, List.foldl_nil]
    rw [Int.add_emod, ih, h n]
    cases xorFold n g <;> cases g n <;> rfl

namespace ComboBitTable

theorem rowPhaseSum_parity (T : ComboBitTable) (i k : Nat) :
    T.rowPhaseSum i k % 2 = ((T.sp i k).toNat : Int) := by
  unfold rowPhaseSum sp sympV _n
  exact foldl_add_parity T.height _ _ (fun j => pauli_product_phase_parity _ _ _ _)

theorem row_product_sign_eq (T : ComboBitTable) (i k : Nat) :
    T._row_product_sign i k
      = ((T.rBit i ^^ T.rBit k) ^^ (Int.land (T.rowPhaseSum i k >>> 1) 1 != 0)) := rfl

/-- C19: for every tableau and every two rows `i`, `k`, the integer `t` that
`_row_product_sign` accumulates is even if and only if the symplectic inner
product of the rows is 0; `pauli_product_phase` is nonzero exactly on
anticommuting single-qubit pairs and changes sign when its operands are
exchanged. -/
theorem phase_sum_even_iff_commute (T : ComboBitTable) (i k : Nat) (x1 z1 x2 z2 : Bool) :
    T._row_product_sign i k
      = ((T.rBit i ^^ T.rBit k) ^^ (Int.land (T.rowPhaseSum i k >>> 1) 1 != 0)) ∧
    (T.rowPhaseSum i k % 2 = 0 ↔ T.symplectic i k = 0) ∧
    (pauli_product_phase x1 z1 x2 z2 ≠ 0 ↔ (x1.toNat * z2.toNat + z1.toNat * x2.toNat) % 2 = 1) ∧
    pauli_product_phase x1 z1 x2 z2 = -pauli_product_phase x2 z2 x1 z1 := by
  refine ⟨rfl, ?_, ?_, pauli_product_phase_antisymm x1 z1 x2 z2⟩
  · rw [rowPhaseSum_parity, symplectic_eq_zero_iff]
    cases T.sp i k <;> simp
  · cases x1 <;> cases z1 <;> cases x2 <;> cases z2 <;> decide

end ComboBitTable
end TurnTable

namespace TurnTable
namespace ComboBitTable

/-! ## `phase` twice and four times -/

theorem and_xor_and_xor (p q : Nat) : (p &&& q) ^^^ (p &&& (q ^^^ p)) = p := by
  apply Nat.eq_of_testBit_eq
  intro k
  simp only [Nat.testBit_xor, Nat.testBit_and]
  cases p.testBit k <;> cases q.testBit k <;> rfl

theorem phase_phase_rWord (T : ComboBitTable) (t : Nat) (ht : t < T.height) (w : Nat)
    (hw : w < T.width) :
    ((T.phase t).phase t).rWord w = T.rWord w ^^^ T.xWord t w := by
  rw [phase_rWord _ t (by rw [phase_height]; exact ht) w (by rw [phase_width]; exact hw),
    phase_rWord T t ht w hw, phase_xWord T t t ht ht w hw, phase_zWord T t ht w hw,
    Nat.xor_assoc, and_xor_and_xor]

theorem phase_phase_xWord (T : ComboBitTable) (t q : Nat) (ht : t < T.height)
    (hq : q < T.height) (w : Nat) (hw : w < T.width) :
    ((T.phase t).phase t).xWord q w = T.xWord q w := by
  rw [phase_xWord _ t q (by rw [phase_height]; exact ht) (by rw [phase_height]; exact hq) w
    (by rw [phase_width]; exact hw), phase_xWord T t q ht hq w hw]

theorem phase_phase_zWord (T : ComboBitTable) (t q : Nat) (ht : t < T.height)
    (hq : q < T.height) (w : Nat) (hw : w < T.width) :
    ((T.phase t).phase t).zWord q w = T.zWord q w := by
  by_cases h : q = t
  · subst h
    rw [phase_zWord _ q (by rw [phase_height]; exact ht) w (by rw [phase_width]; exact hw),
      phase_zWord T q ht w hw, phase_xWord T q q ht ht w hw, Nat.xor_cancel_right]
  · rw [phase_zWord_ne _ t q (by rw [phase_height]; exact ht) (by rw [phase_height]; exact hq) h
      w (by rw [phase_width]; exact hw), phase_zWord_ne T t q ht hq h w hw]

/-- Two `phase(t)` calls word by word over the whole buffer. -/
theorem phase_phase_data (T : ComboBitTable) (t : Nat) (ht : t < T.height) (a : Nat) :
    ((T.phase t).phase t).data a
      = if T.r.data ≤ a ∧ a < T.r.data + T.width then
          T.data a ^^^ T.data ((T.x.row t).data + (a - T.r.data))
        else T.data a := by
  have hb := row_bound T.width T.height t ht
  by_cases hR : T.r.data ≤ a ∧ a < T.r.data + T.width
  · rw [if_pos hR]
    have hw : a - T.r.data < T.width := by omega
    have h := phase_phase_rWord T t ht (a - T.r.data) hw
    unfold rWord xWord at h
    simp only [phase_width, phase_height, r] at h hR ⊢
    rw [Nat.add_sub_cancel' hR.1] at h
    exact h
  · rw [if_neg hR]
    by_cases hZ : (T.z.row t).data ≤ a ∧ a < (T.z.row t).data + T.width
    · have hw : a - (T.z.row t).data < T.width := by omega
      have h := phase_phase_zWord T t t ht ht (a - (T.z.row t).data) hw
      unfold zWord at h
      simp only [phase_width, phase_height, z, BitTableView.row] at h hZ ⊢
      rw [Nat.add_sub_cancel' hZ.1] at h
      exact h
    · rw [phase_frame _ t (by rw [phase_height]; exact ht) a
        (by simp only [r, phase_width, phase_height] at hR ⊢; omega)
        (by simp only [z, BitTableView.row, phase_width, phase_height] at hZ ⊢; omega),
        phase_frame T t ht a (by omega) (by omega)]

/-- C20: for an in-range target, two `phase(target)` calls leave every `X` and
`Z` word as it was and XOR `X_target` into the phase vector, so that exactly the
rows with an `X` bit on the target have their phase bit flipped; four calls
restore the whole buffer, hence the `X` table, the `Z` table and the phase
vector, word for word. -/
theorem phase_twice_and_four_times (T : ComboBitTable) (target : Nat)
    (ht : target < T.height) :
    (∀ q, q < T.height → ∀ w, w < T.width →
      ((T.phase target).phase target).xWord q w = T.xWord q w ∧
      ((T.phase target).phase target).zWord q w = T.zWord q w) ∧
    (∀ w, w < T.width →
      ((T.phase target).phase target).rWord w = T.rWord w ^^^ T.xWord target w) ∧
    (∀ g, g < 64 * T.width →
      ((T.phase target).phase target).rBit g = (T.rBit g ^^ T.xBit g target)) ∧
    (((T.phase target).phase target).phase target).phase target = T := by
  refine ⟨fun q hq w hw => ⟨phase_phase_xWord T target q ht hq w hw,
    phase_phase_zWord T target q ht hq w hw⟩,
    fun w hw => phase_phase_rWord T target ht w hw, ?_, ?_⟩
  · intro g hg
    rw [rBit_eq_rWord, phase_phase_rWord T target ht _ (by omega), Nat.testBit_xor,
      rBit_eq_rWord, xBit_eq_xWord]
  · apply ComboBitTable.ext
    · rfl
    · rfl
    funext a
    rw [phase_phase_data _ target (by simp only [phase_height]; exact ht) a]
    simp only [phase_width, phase_height, r, x, BitTableView.row]
    by_cases hR : T.width * T.height * 2 ≤ a ∧ a < T.width * T.height * 2 + T.width
    · have hb := row_bound T.width T.height target ht
      rw [if_pos hR, phase_phase_data T target ht a,
        phase_phase_data T target ht (0 + target * T.width + (a - T.width * T.height * 2))]
      simp only [r, x, BitTableView.row]
      rw [if_pos hR, if_neg (by omega), Nat.xor_cancel_right]
    · rw [if_neg hR, phase_phase_data T target ht a]
      simp only [r]
      rw [if_neg hR]

/-- Witness of C20: `phase(0)` twice on the one-qubit state with generators
`Y0`, `X0` (buffer words `3, 1, 0`) flips both phase bits. -/
theorem phase_twice_and_four_times_witness :
    (((ComboBitTable.mk 1 1 (fun a => [3, 1, 0].getD a 0)).phase 0).phase 0).rWord 0 = 3 ∧
    ((((ComboBitTable.mk 1 1 (fun a => [3, 1, 0].getD a 0)).phase 0).phase 0).phase 0).phase 0
      = ComboBitTable.mk 1 1 (fun a => [3, 1, 0].getD a 0) := by
  have h := phase_twice_and_four_times (ComboBitTable.mk 1 1 (fun a => [3, 1, 0].getD a 0)) 0
    (by decide)
  exact ⟨(h.2.1 0 (by decide)).trans (by decide), h.2.2.2⟩

end ComboBitTable
end TurnTable

namespace TurnTable

/-- The reference exponent is the one of the matrix product:
`σ(a) * σ(b) = i ^ e(a, b) * σ(a XOR b)`. -/
theorem pauliMatrix_mul (x1 z1 x2 z2 : Bool) :
    pauliMatrix x1 z1 * pauliMatrix x2 z2
      = gaussI ^ (pauliExponent x1 z1 x2 z2 % 4).toNat • pauliMatrix (x1 ^^ x2) (z1 ^^ z2) := by
  cases x1 <;> cases z1 <;> cases x2 <;> cases z2 <;> decide

end TurnTable

namespace TurnTable

/-- The code's exponent is the reference exponent of the operands in the other
order. -/
theorem pauli_product_phase_eq_swap (x1 z1 x2 z2 : Bool) :
    pauli_product_phase x1 z1 x2 z2 = pauliExponent x2 z2 x1 z1 := by
  cases x1 <;> cases z1 <;> cases x2 <;> cases z2 <;> decide

theorem pauli_product_phase_eq_neg (x1 z1 x2 z2 : Bool) :
    pauli_product_phase x1 z1 x2 z2 = -pauliExponent x1 z1 x2 z2 := by
  cases x1 <;> cases z1 <;> cases x2 <;> cases z2 <;> decide

/-- C16 as stated fails on `X * Y`: the code returns `-1`, the exponent of
`i` in `XY = iZ` is `+1`. -/
theorem pauli_product_phase_XY :
    pauli_product_phase true false true true = -1 ∧
    pauli_product_phase true false true true ≠ 1 ∧
    pauliMatrix true false * pauliMatrix true true = gaussI ^ 1 • pauliMatrix false true := by
  refine ⟨by decide, by decide, by decide⟩

/-- C16 amended: with `X = (1,0)`, `Z = (0,1)`, `Y = (1,1)`, `I = (0,0)`,
`pauli_product_phase(operator 1, operator 2)` is the exponent of `i` in the
product `operator2 * operator1`, the negative of the exponent in
`operator1 * operator2`: `-1` for `X*Y`, `Y*Z`, `Z*X`, `+1` for `Y*X`, `Z*Y`,
`X*Z`, and `0` when an operand is `I` or the operands are equal. -/
theorem pauli_product_phase_table (x1 z1 x2 z2 : Bool) :
    pauli_product_phase x1 z1 x2 z2 = pauliExponent x2 z2 x1 z1 ∧
    pauli_product_phase x1 z1 x2 z2 = -pauliExponent x1 z1 x2 z2 ∧
    pauliMatrix x2 z2 * pauliMatrix x1 z1
      = gaussI ^ (pauli_product_phase x1 z1 x2 z2 % 4).toNat
          • pauliMatrix (x1 ^^ x2) (z1 ^^ z2) ∧
    pauli_product_phase true false true true = -1 ∧
    pauli_product_phase true true false true = -1 ∧
    pauli_product_phase false true true false = -1 ∧
    pauli_product_phase true true true false = 1 ∧
    pauli_product_phase false true true true = 1 ∧
    pauli_product_phase true false false true = 1 ∧
    pauli_product_phase false false x2 z2 = 0 ∧
    pauli_product_phase x1 z1 false false = 0 ∧
    pauli_product_phase x1 z1 x1 z1 = 0 := by
  refine ⟨pauli_product_phase_eq_swap x1 z1 x2 z2, pauli_product_phase_eq_neg x1 z1 x2 z2, ?_,
    by decide, by decide, by decide, by decide, by decide, by decide, ?_, ?_, ?_⟩
  · cases x1 <;> cases z1 <;> cases x2 <;> cases z2 <;> decide
  · cases x2 <;> cases z2 <;> decide
  · cases x1 <;> cases z1 <;> decide
  · cases x1 <;> cases z1 <;> decide

end TurnTable

namespace TurnTable

/-! ## The sign of a row product -/

theorem nat_ldiff_one (n : Nat) : Nat.ldiff 1 n = 1 - n % 2 := by
  apply Nat.eq_of_testBit_eq
  intro k
  rw [Nat.testBit_ldiff]
  rcases Nat.mod_two_eq_zero_or_one n with h | h
  · rw [h]
    cases k with
    | zero => simp [Nat.testBit_zero, h]
    | succ k => simp [Nat.testBit_succ]
  · rw [h]
    cases k with
    | zero => simp [Nat.testBit_zero, h]
    | succ k => simp [Nat.testBit_succ]

/-- The mask `t & 1` of an `int` is its remainder modulo 2, also when `t` is
negative. -/
theorem int_land_one (t : Int) : Int.land t 1 = t % 2 := by
  cases t with
  | ofNat n =>
    show ((Nat.land n 1 : Nat) : Int) = (n : Int) % 2
    have : Nat.land n 1 = n % 2 := Nat.and_one_is_mod n
    rw [this]
    rfl
  | negSucc n =>
    show ((Nat.ldiff 1 n : Nat) : Int) = Int.negSucc n % 2
    rw [nat_ldiff_one, Int.negSucc_eq]
    have h := Nat.mod_two_eq_zero_or_one n
    omega

/-- The arithmetic shift `t >> 1` of an `int` is the floor of `t / 2`. -/
theorem int_shiftRight_one (t : Int) : t >>> (1 : Int) = t / 2 := by
  cases t with
  | ofNat m =>
    have h := Int.shiftRight_coe_nat m 1
    rw [Nat.cast_one] at h
    show (m : Int) >>> (1 : Int) = (m : Int) / 2
    rw [h, Nat.shiftRight_eq_div_pow, Nat.pow_one]
    omega
  | negSucc m =>
    have h := Int.shiftRight_negSucc m 1
    rw [Nat.cast_one] at h
    rw [h, Nat.shiftRight_eq_div_pow, Nat.pow_one, Int.negSucc_eq, Int.negSucc_eq]
    omega

/-- The bit `(t >> 1) & 1` of an even `t` is set exactly when `t` is 2 modulo 4. -/
theorem shift_mask_of_even (t : Int) (ht : t % 2 = 0) :
    (Int.land (t >>> 1) 1 != 0) = decide (t % 4 = 2) := by
  rw [int_land_one, int_shiftRight_one]
  by_cases h : t % 4 = 2
  · have : t / 2 % 2 = 1 := by omega
    simp [h, this]
  · have : t / 2 % 2 = 0 := by omega
    simp [h, this]

theorem foldl_add_neg (n : Nat) (f g : Nat → Int) (h : ∀ j, f j = -g j) :
    (List.range n).foldl (fun t j => t + f j) 0
      = -(List.range n).foldl (fun t j => t + g j) 0 := by
  induction n with
  | zero => rfl
  | succ n ih =>
    rw [List.range_succ, List.foldl_append, List.foldl_append, ih]
    simp only [List.foldl_cons, List.foldl_nil]
    rw [h n]
    omega

namespace ComboBitTable

/-- The integer the code accumulates is the negative of the reference exponent
sum of the two rows. -/
theorem rowPhaseSum_eq_neg (T : ComboBitTable) (i k : Nat) :
    T.rowPhaseSum i k = -PauliString.exponentSum T.height (T.rowString i) (T.rowString k) := by
  unfold rowPhaseSum PauliString.exponentSum rowString _n
  exact foldl_add_neg T.height _ _ (fun j => pauli_product_phase_eq_neg _ _ _ _)

/-- For commuting rows the phase bit `_row_product_sign` returns is the sign of
the reference product. -/
theorem row_product_sign_reference (T : ComboBitTable) (i k : Nat)
    (hcomm : T.symplectic i k = 0) :
    (if T._row_product_sign i k then (2 : Int) else 0)
      = (PauliString.mul T.height (T.rowString i) (T.rowString k)).phase := by
  have hpar : T.rowPhaseSum i k % 2 = 0 := by
    rw [rowPhaseSum_parity, (symplectic_eq_zero_iff T i k).1 hcomm]
    rfl
  have hneg := rowPhaseSum_eq_neg T i k
  rw [row_product_sign_eq, shift_mask_of_even _ hpar]
  show _ = ((if T.rBit i then (2 : Int) else 0) + (if T.rBit k then (2 : Int) else 0)
    + PauliString.exponentSum T.height (T.rowString i) (T.rowString k)) % 4
  generalize PauliString.exponentSum T.height (T.rowString i) (T.rowString k) = s at hneg
  generalize T.rowPhaseSum i k = t at hneg hpar
  subst hneg
  by_cases h : -s % 4 = 2
  · cases T.rBit i <;> cases T.rBit k <;> simp [h] <;> omega
  · cases T.rBit i <;> cases T.rBit k <;> simp [h] <;> omega

end ComboBitTable
end TurnTable

namespace TurnTable
namespace ComboBitTable

/-! ## `_row_mult` generator by generator -/

theorem row_mult_xBit (T : ComboBitTable) (i k : Nat) (hi : i < 64 * T.width)
    (hk : k < 64 * T.width) (hik : i ≠ k) (g j : Nat) (hg : g < 64 * T.width)
    (hj : j < T.height) :
    (T._row_mult i k).xBit g j = if g = i then (T.xBit i j ^^ T.xBit k j) else T.xBit g j := by
  rw [xBit_eq_cell, row_mult_cell T i k hi hk hik j g hg (by omega)]
  simp only [xBit_eq_cell]
  rw [if_pos (by omega : j < T.height * 2)]

theorem row_mult_zBit (T : ComboBitTable) (i k : Nat) (hi : i < 64 * T.width)
    (hk : k < 64 * T.width) (hik : i ≠ k) (g j : Nat) (hg : g < 64 * T.width)
    (hj : j < T.height) :
    (T._row_mult i k).zBit g j = if g = i then (T.zBit i j ^^ T.zBit k j) else T.zBit g j := by
  rw [zBit_eq_cell, row_mult_height, row_mult_cell T i k hi hk hik _ g hg (by omega)]
  simp only [zBit_eq_cell]
  rw [if_pos (by omega : T.height + j < T.height * 2)]

theorem row_mult_rBit (T : ComboBitTable) (i k : Nat) (hi : i < 64 * T.width)
    (hk : k < 64 * T.width) (hik : i ≠ k) (g : Nat) (hg : g < 64 * T.width) :
    (T._row_mult i k).rBit g = if g = i then T._row_product_sign i k else T.rBit g := by
  rw [rBit_eq_cell, row_mult_height, row_mult_cell T i k hi hk hik _ g hg (Nat.le_refl _)]
  simp only [rBit_eq_cell]
  rw [if_neg (by omega : ¬ T.height * 2 < T.height * 2)]

end ComboBitTable
end TurnTable

namespace TurnTable
namespace ComboBitTable

/-- C15: on a tableau whose rows hold the `2n` generator bits, for two rows
`i ≠ k` with symplectic inner product 0, `_row_mult(i, k)` makes row `i` the
reference product of the old rows `i` and `k` as signed Pauli strings: `X` and
`Z` bits XORed, phase bit `r[i] XOR r[k] XOR ((t >> 1) & 1)` with `t` the sum of
`pauli_product_phase` over the qubits, which is the sign of that product; row
`k` and every other row keep their bits. -/
theorem row_mult_is_product (T : ComboBitTable) (i k : Nat)
    (hfit : 2 * T.height ≤ 64 * T.width) (hi : i < 2 * T.height) (hk : k < 2 * T.height)
    (hik : i ≠ k) (hcomm : T.symplectic i k = 0) :
    (∀ j, j < T.height →
      (T._row_mult i k).xBit i j = (T.xBit i j ^^ T.xBit k j) ∧
      (T._row_mult i k).zBit i j = (T.zBit i j ^^ T.zBit k j)) ∧
    (T._row_mult i k).rBit i
      = ((T.rBit i ^^ T.rBit k) ^^ (Int.land (T.rowPhaseSum i k >>> 1) 1 != 0)) ∧
    ((T._row_mult i k).rowString i).phase
      = (PauliString.mul T.height (T.rowString i) (T.rowString k)).phase ∧
    (∀ j, j < T.height →
      ((T._row_mult i k).rowString i).x j
        = (PauliString.mul T.height (T.rowString i) (T.rowString k)).x j ∧
      ((T._row_mult i k).rowString i).z j
        = (PauliString.mul T.height (T.rowString i) (T.rowString k)).z j) ∧
    (∀ g, g < 2 * T.height → g ≠ i →
      (∀ j, j < T.height →
        (T._row_mult i k).xBit g j = T.xBit g j ∧ (T._row_mult i k).zBit g j = T.zBit g j) ∧
      (T._row_mult i k).rBit g = T.rBit g) := by
  have hi' : i < 64 * T.width := by omega
  have hk' : k < 64 * T.width := by omega
  have hx : ∀ j, j < T.height →
      (T._row_mult i k).xBit i j = (T.xBit i j ^^ T.xBit k j) ∧
      (T._row_mult i k).zBit i j = (T.zBit i j ^^ T.zBit k j) := by
    intro j hj
    rw [row_mult_xBit T i k hi' hk' hik i j hi' hj, row_mult_zBit T i k hi' hk' hik i j hi' hj,
      if_pos rfl, if_pos rfl]
    exact ⟨rfl, rfl⟩
  have hr : (T._row_mult i k).rBit i = T._row_product_sign i k := by
    rw [row_mult_rBit T i k hi' hk' hik i hi', if_pos rfl]
  refine ⟨hx, ?_, ?_, hx, ?_⟩
  · rw [hr, row_product_sign_eq]
  · show (if (T._row_mult i k).rBit i then (2 : Int) else 0) = _
    rw [hr]
    exact row_product_sign_reference T i k hcomm
  · intro g hg hgi
    refine ⟨fun j hj => ?_, ?_⟩
    · rw [row_mult_xBit T i k hi' hk' hik g j (by omega) hj,
        row_mult_zBit T i k hi' hk' hik g j (by omega) hj, if_neg hgi, if_neg hgi]
      exact ⟨rfl, rfl⟩
    · rw [row_mult_rBit T i k hi' hk' hik g (by omega), if_neg hgi]

/-- Witness of C15: on the two-qubit identity state the stabilizers `Z0` (row
2) and `Z1` (row 3) commute, and `_row_mult(2, 3)` makes row 2 the string
`Z0 Z1` with phase 0. -/
theorem row_mult_is_product_witness :
    (identity 1 2).symplectic 2 3 = 0 ∧
    ((identity 1 2)._row_mult 2 3).zBit 2 0 = true ∧
    ((identity 1 2)._row_mult 2 3).zBit 2 1 = true ∧
    ((identity 1 2)._row_mult 2 3).rBit 2 = false := by
  have h := row_mult_is_product (identity 1 2) 2 3 (by decide) (by decide) (by decide)
    (by decide) (by decide)
  exact ⟨by decide, (h.1 0 (by decide)).2.trans (by decide),
    (h.1 1 (by decide)).2.trans (by decide), h.2.1.trans (by decide)⟩

end ComboBitTable
end TurnTable

namespace TurnTable
namespace ComboBitTable

/-- The sign of a row product read in another tableau at other columns that
hold the same bits. -/
theorem row_product_sign_congr_cols (T T' : ComboBitTable) (hh : T'.height = T.height)
    (i k i' k' : Nat)
    (h : ∀ ρ, ρ ≤ T.height * 2 → T'.cell ρ i' = T.cell ρ i ∧ T'.cell ρ k' = T.cell ρ k) :
    T'._row_product_sign i' k' = T._row_product_sign i k := by
  unfold _row_product_sign _n
  have hsum : (List.range T.height).foldl
      (fun t j => t + pauli_product_phase (T'.xBit i' j) (T'.zBit i' j) (T'.xBit k' j)
        (T'.zBit k' j)) 0
      = (List.range T.height).foldl
      (fun t j => t + pauli_product_phase (T.xBit i j) (T.zBit i j) (T.xBit k j) (T.zBit k j)) 0 := by
    apply foldl_add_congr
    intro j hj
    simp only [xBit_eq_cell, zBit_eq_cell, hh]
    rw [(h j (by omega)).1, (h j (by omega)).2, (h (T.height + j) (by omega)).1,
      (h (T.height + j) (by omega)).2]
  simp only [hh, hsum, rBit_eq_cell]
  rw [(h (T.height * 2) (Nat.le_refl _)).1, (h (T.height * 2) (Nat.le_refl _)).2]

end ComboBitTable
end TurnTable

namespace TurnTable

/-! ## The allocation of the constructor -/

theorem testBit_mask32 (k : Nat) :
    (2 ^ 64 - 32).testBit k = (decide (k < 64) && !decide (k < 5)) := by
  have h : 2 ^ 64 - 32 = 2 ^ 64 - (31 + 1) := by decide
  have h31 : (31 : Nat) = 2 ^ 5 - 1 := by decide
  rw [h, Nat.testBit_two_pow_sub_succ (by decide), h31, Nat.testBit_two_pow_sub_one]

/-- Without overflow the padded width is `width + 63` rounded down to a
multiple of 32. -/
theorem paddedWidth_eq (width : Nat) (h : width + 63 < 2 ^ 64) :
    paddedWidth width = (width + 63) / 32 * 32 := by
  unfold paddedWidth
  rw [Nat.mod_eq_of_lt h]
  apply Nat.eq_of_testBit_eq
  intro k
  have hs : (width + 63) / 32 * 32 = ((width + 63) >>> 5) <<< 5 := by
    rw [Nat.shiftRight_eq_div_pow, Nat.shiftLeft_eq]
  rw [hs, Nat.testBit_and, testBit_mask32, Nat.testBit_shiftLeft, Nat.testBit_shiftRight]
  by_cases h5 : k < 5
  · have : ¬ k ≥ 5 := by omega
    simp [h5, this]
  · have h5' : k ≥ 5 := by omega
    have hk : 5 + (k - 5) = k := by omega
    by_cases h64 : k < 64
    · simp [h5, h5', h64, hk]
    · have hlt : width + 63 < 2 ^ k :=
        Nat.lt_of_lt_of_le h (Nat.pow_le_pow_right (by decide) (by omega))
      simp [h5, h5', h64, hk, Nat.testBit_lt_two_pow hlt]

/-- For every width and height of at least 1 (and no overflow of the padding)
the buffer is shorter than the region the views cover: the last word of the
phase row lies at or beyond the end of the allocation. -/
theorem allocatedWords_lt_views (width height : Nat) (hw : 1 ≤ width)
    (h : width + 63 < 2 ^ 64) (heap : Memory) :
    allocatedWords width height
      < (ComboBitTable.new width height heap).r.data + (ComboBitTable.new width height heap).width := by
  unfold allocatedWords
  show _ < paddedWidth width * height * 2 + paddedWidth width
  have hpos : 64 ≤ paddedWidth width := by
    rw [paddedWidth_eq width h]
    omega
  have hle : (paddedWidth width * (height * 2 + 1)) % 2 ^ 64 ≤ paddedWidth width * (height * 2 + 1) :=
    Nat.mod_le _ _
  have hexp : paddedWidth width * (height * 2 + 1)
      = paddedWidth width * height * 2 + paddedWidth width := by ring
  have hdiv := Nat.div_le_self ((paddedWidth width * (height * 2 + 1)) % 2 ^ 64) 64
  have hpos' : 0 < paddedWidth width * (height * 2 + 1) := Nat.mul_pos (by omega) (by omega)
  have hlt : (paddedWidth width * (height * 2 + 1)) % 2 ^ 64 / 64
      < paddedWidth width * (height * 2 + 1) := by
    apply Nat.lt_of_le_of_lt (Nat.div_le_div_right hle)
    exact Nat.div_lt_self hpos' (by decide)
  omega

/-- C14, evaluated for `width = 1`, `height = 1`: the padded width is 64 words,
the views `x`, `z` and `r` cover the words `[0, 64)`, `[64, 128)` and
`[128, 192)`, and the buffer is allocated with `64 * 3 / 64 = 3` words, so word
3 of `x.row(0)` already lies outside it. -/
theorem allocation_for_one_qubit :
    paddedWidth 1 = 64 ∧ allocatedWords 1 1 = 3 ∧
    ((ComboBitTable.new 1 1 (fun _ => 0)).x.row 0).data = 0 ∧
    ((ComboBitTable.new 1 1 (fun _ => 0)).x.row 0).total = 64 ∧
    (ComboBitTable.new 1 1 (fun _ => 0)).z.data = 64 ∧
    (ComboBitTable.new 1 1 (fun _ => 0)).r.data = 128 ∧
    (ComboBitTable.new 1 1 (fun _ => 0)).r.total = 64 ∧
    ¬ ((ComboBitTable.new 1 1 (fun _ => 0)).x.row 0).data + 3 < allocatedWords 1 1 := by
  decide

end TurnTable

namespace TurnTable

/-! ## What the constructor leaves in the buffer -/

/-- C12 as stated fails: constructed for one qubit over a buffer that holds
zeros, the tableau has no `X` bit on qubit 0 in destabilizer row 0 and no `Z`
bit on qubit 0 in stabilizer row 1. -/
theorem new_is_not_identity :
    (ComboBitTable.new 2 1 (fun _ => 0)).height = 1 ∧
    (ComboBitTable.new 2 1 (fun _ => 0)).xBit 0 0 = false ∧
    (ComboBitTable.new 2 1 (fun _ => 0)).zBit 1 0 = false := by
  decide

/-- C12 amended: for every width, height and contents `heap` of the newly
allocated buffer, the constructor stores the padded width and the height, sets
the views `x`, `z`, `r` at the word offsets `0`, `W * height`, `2 * W * height`
and writes no word: the buffer is `heap`, and every `X`, `Z` and phase bit of
the tableau is the bit `heap` holds at its place. -/
theorem new_leaves_buffer (width height : Nat) (heap : Memory) :
    (ComboBitTable.new width height heap).width = paddedWidth width ∧
    (ComboBitTable.new width height heap).height = height ∧
    (ComboBitTable.new width height heap).x = ⟨0, paddedWidth width, height⟩ ∧
    (ComboBitTable.new width height heap).z
      = ⟨paddedWidth width * height, paddedWidth width, height⟩ ∧
    (ComboBitTable.new width height heap).r
      = ⟨paddedWidth width * height * 2, paddedWidth width, 1⟩ ∧
    (ComboBitTable.new width height heap).data = heap ∧
    (∀ i j, (ComboBitTable.new width height heap).xBit i j
      = (heap (j * paddedWidth width + i / 64)).testBit (i % 64)) ∧
    (∀ i j, (ComboBitTable.new width height heap).zBit i j
      = (heap (paddedWidth width * height + j * paddedWidth width + i / 64)).testBit (i % 64)) ∧
    (∀ i, (ComboBitTable.new width height heap).rBit i
      = (heap (paddedWidth width * height * 2 + i / 64)).testBit (i % 64)) := by
  refine ⟨rfl, rfl, rfl, rfl, rfl, rfl, ?_, ?_, ?_⟩
  · intro i j
    show (heap (0 + j * paddedWidth width + i / 64)).testBit (i % 64) = _
    rw [Nat.zero_add]
  · intro i j
    rfl
  · intro i
    show (heap (paddedWidth width * height * 2 + 0 * paddedWidth width + i / 64)).testBit (i % 64)
      = _
    rw [Nat.zero_mul, Nat.add_zero]

/-! ## The gates without a range check -/

theorem xorLoop_frame_any (dst : Nat) (e : Memory → Nat → Nat) (total : Nat) (m : Memory)
    (a : Nat) (ha : a < dst ∨ dst + total ≤ a) :
    xorLoop dst e total m a = m a := by
  induction total with
  | zero => rfl
  | succ k ih =>
    rw [xorLoop_succ]
    unfold store
    rw [if_neg (by omega)]
    exact ih (by omega)

theorem xorAssign_frame_any (v rhs : BitTableView) (m : Memory) (a : Nat)
    (ha : a < v.data ∨ v.data + v.total ≤ a) : v.xorAssign rhs m a = m a :=
  xorLoop_frame_any v.data (fun m i => m (rhs.data + i)) v.total m a ha

theorem xorAssignIntersection_frame_any (v : BitTableView) (rhs : BitTableIntersection)
    (m : Memory) (a : Nat) (ha : a < v.data ∨ v.data + v.total ≤ a) :
    v.xorAssignIntersection rhs m a = m a :=
  xorLoop_frame_any v.data (fun m i => m (rhs.t1.data + i) &&& m (rhs.t2.data + i)) v.total m a ha

theorem xorAssignXorIntersection_frame_any (v : BitTableView) (rhs : BitTableXorIntersection)
    (m : Memory) (a : Nat) (ha : a < v.data ∨ v.data + v.total ≤ a) :
    v.xorAssignXorIntersection rhs m a = m a :=
  xorLoop_frame_any v.data (fun m i => rhs.word m i) v.total m a ha

/-- The loop of `operator^=` when the expression reads, at round `i`, no word
the earlier rounds wrote: it may read word `i` of the destination itself. -/
theorem xorLoop_upto_self (dst : Nat) (e : Memory → Nat → Nat) (total : Nat) (m : Memory)
    (hE : ∀ i, i < total → ∀ m' : Memory, (∀ a, (a < dst ∨ dst + i ≤ a) → m' a = m a) →
      e m' i = e m i) :
    ∀ k, k ≤ total → ∀ a, xorLoop dst e k m a
      = if dst ≤ a ∧ a < dst + k then m a ^^^ e m (a - dst) else m a := by
  intro k
  induction k with
  | zero =>
    intro _ a
    rw [if_neg (by omega)]
    rfl
  | succ k ih =>
    intro hk a
    have ihk := ih (by omega)
    have hagree : ∀ b, (b < dst ∨ dst + k ≤ b) → xorLoop dst e k m b = m b := by
      intro b hb
      rw [ihk b, if_neg (by omega)]
    rw [xorLoop_succ, hE k (by omega) _ hagree, ihk (dst + k), if_neg (by omega)]
    unfold store
    by_cases h : a = dst + k
    · subst h
      simp
    · rw [if_neg h, ihk a]
      by_cases h1 : dst ≤ a ∧ a < dst + k
      · rw [if_pos h1, if_pos (by omega)]
      · rw [if_neg h1, if_neg (by omega)]

/-- The statement `r ^= a & r`: the destination is its own second operand. -/
theorem xorAssignIntersection_self_at (D A n h1 h2 : Nat) (m : Memory) (i : Nat) (hi : i < n)
    (hA : A + n ≤ D ∨ D + n ≤ A) :
    (BitTableView.mk D n 1).xorAssignIntersection ⟨⟨A, n, h1⟩, ⟨D, n, h2⟩⟩ m (D + i)
      = m (D + i) ^^^ (m (A + i) &&& m (D + i)) := by
  have hE : ∀ j, j < n → ∀ m' : Memory, (∀ a, (a < D ∨ D + j ≤ a) → m' a = m a) →
      (fun (m : Memory) (i : Nat) => m (A + i) &&& m (D + i)) m' j
        = (fun (m : Memory) (i : Nat) => m (A + i) &&& m (D + i)) m j := by
    intro j hj m' hm'
    have e1 : A + j < D ∨ D + j ≤ A + j := by
      rcases hA with h | h
      · exact Or.inl (by omega)
      · exact Or.inr (by omega)
    have e2 : D + j < D ∨ D + j ≤ D + j := Or.inr (Nat.le_refl _)
    show m' (A + j) &&& m' (D + j) = m (A + j) &&& m (D + j)
    rw [hm' (A + j) e1, hm' (D + j) e2]
  have := xorLoop_upto_self D (fun m i => m (A + i) &&& m (D + i)) n m hE n (Nat.le_refl _) (D + i)
  rw [if_pos ⟨Nat.le_add_right _ _, Nat.add_lt_add_left hi _⟩, Nat.add_sub_cancel_left] at this
  show xorLoop D (fun m i => m (A + i) &&& m (D + i)) (n * 1) m (D + i) = _
  rw [Nat.mul_one]
  exact this

theorem xorAssignIntersection_self_frame (D A n h1 h2 : Nat) (m : Memory) (a : Nat)
    (ha : a < D ∨ D + n ≤ a) :
    (BitTableView.mk D n 1).xorAssignIntersection ⟨⟨A, n, h1⟩, ⟨D, n, h2⟩⟩ m a = m a :=
  xorAssignIntersection_frame_any _ _ _ _ (by simp only [BitTableView.total, Nat.mul_one]; exact ha)

/-- The four statements of `hadamard` when the `z` row of the target is the
phase row itself. -/
theorem hadamardCore_self (R A n : Nat) (m : Memory) (hRA : A + n ≤ R ∨ R + n ≤ A)
    (i : Nat) (hi : i < n) :
    hadamardCore R A R n m (R + i) = m (A + i) ∧
    hadamardCore R A R n m (A + i) = m (R + i) ^^^ (m (A + i) &&& m (R + i)) := by
  unfold hadamardCore
  constructor
  · simp (disch := omega) only [xorAssign_at, xorAssign_frame, xorAssignIntersection_self_at,
      xorAssignIntersection_self_frame]
    rw [Nat.xor_comm (m (A + i)), Nat.xor_cancel_left]
  · simp (disch := omega) only [xorAssign_at, xorAssign_frame, xorAssignIntersection_self_at,
      xorAssignIntersection_self_frame]
    rw [Nat.xor_comm (m (A + i)), Nat.xor_cancel_left, Nat.xor_assoc, Nat.xor_self,
      Nat.xor_zero]

/-- The two statements of `phase` when the `z` row of the target is the phase
row itself. -/
theorem phaseCore_self (R A n : Nat) (m : Memory) (hRA : A + n ≤ R ∨ R + n ≤ A)
    (i : Nat) (hi : i < n) :
    phaseCore R A R n m (R + i) = m (R + i) ^^^ (m (A + i) &&& m (R + i)) ^^^ m (A + i) ∧
    phaseCore R A R n m (A + i) = m (A + i) := by
  unfold phaseCore
  constructor
  · simp (disch := omega) only [xorAssign_at, xorAssign_frame, xorAssignIntersection_self_at,
      xorAssignIntersection_self_frame]
  · simp (disch := omega) only [xorAssign_at, xorAssign_frame, xorAssignIntersection_self_at,
      xorAssignIntersection_self_frame]

namespace ComboBitTable

theorem hadamard_frame_any (T : ComboBitTable) (t a : Nat)
    (hR : a < T.r.data ∨ T.r.data + T.width ≤ a)
    (hX : a < (T.x.row t).data ∨ (T.x.row t).data + T.width ≤ a)
    (hZ : a < (T.z.row t).data ∨ (T.z.row t).data + T.width ≤ a) :
    (T.hadamard t).data a = T.data a := by
  have e1 : (T.x.row t).total = T.width := by simp [BitTableView.total, BitTableView.row, x]
  have e2 : (T.z.row t).total = T.width := by simp [BitTableView.total, BitTableView.row, z]
  have e3 : T.r.total = T.width := by simp [BitTableView.total, r]
  show (T.x.row t).xorAssign (T.z.row t) ((T.z.row t).xorAssign (T.x.row t)
    ((T.x.row t).xorAssign (T.z.row t)
      (T.r.xorAssignIntersection ((T.x.row t).and (T.z.row t)) T.data))) a = T.data a
  rw [xorAssign_frame_any _ _ _ _ (by rw [e1]; exact hX),
    xorAssign_frame_any _ _ _ _ (by rw [e2]; exact hZ),
    xorAssign_frame_any _ _ _ _ (by rw [e1]; exact hX),
    xorAssignIntersection_frame_any _ _ _ _ (by rw [e3]; exact hR)]

theorem phase_frame_any (T : ComboBitTable) (t a : Nat)
    (hR : a < T.r.data ∨ T.r.data + T.width ≤ a)
    (hZ : a < (T.z.row t).data ∨ (T.z.row t).data + T.width ≤ a) :
    (T.phase t).data a = T.data a := by
  have e2 : (T.z.row t).total = T.width := by simp [BitTableView.total, BitTableView.row, z]
  have e3 : T.r.total = T.width := by simp [BitTableView.total, r]
  show (T.z.row t).xorAssign (T.x.row t)
    (T.r.xorAssignIntersection ((T.x.row t).and (T.z.row t)) T.data) a = T.data a
  rw [xorAssign_frame_any _ _ _ _ (by rw [e2]; exact hZ),
    xorAssignIntersection_frame_any _ _ _ _ (by rw [e3]; exact hR)]

theorem cnot_frame_any (T : ComboBitTable) (c t a : Nat)
    (hR : a < T.r.data ∨ T.r.data + T.width ≤ a)
    (hX : a < (T.x.row t).data ∨ (T.x.row t).data + T.width ≤ a)
    (hZ : a < (T.z.row c).data ∨ (T.z.row c).data + T.width ≤ a) :
    (T.cnot c t).data a = T.data a := by
  have e1 : (T.x.row t).total = T.width := by simp [BitTableView.total, BitTableView.row, x]
  have e2 : (T.z.row c).total = T.width := by simp [BitTableView.total, BitTableView.row, z]
  have e3 : T.r.total = T.width := by simp [BitTableView.total, r]
  show (T.z.row c).xorAssign (T.z.row t) ((T.x.row t).xorAssign (T.x.row c)
    (T.r.xorAssignXorIntersection (((T.x.row c).and (T.z.row t)).and
      ((T.x.row t).xor (T.z.row t)).not) T.data)) a = T.data a
  rw [xorAssign_frame_any _ _ _ _ (by rw [e2]; exact hZ),
    xorAssign_frame_any _ _ _ _ (by rw [e1]; exact hX),
    xorAssignXorIntersection_frame_any _ _ _ _ (by rw [e3]; exact hR)]

/-- C13 as stated fails: `hadamard(1)` on the one-qubit tableau `plusState`
reports nothing and overwrites the `Z` word of qubit 0 and the phase word,
because `x.row(1)` is `z.row(0)` and `z.row(1)` is the phase row. -/
theorem hadamard_out_of_range_writes :
    plusState.height = 1 ∧
    plusState.zWord 0 0 = 1 ∧ (plusState.hadamard 1).zWord 0 0 = 0 ∧
    plusState.rWord 0 = 0 ∧ (plusState.hadamard 1).rWord 0 = 1 := by
  decide

/-- What `hadamard(n)` does on a tableau of `n >= 1` qubits: `x.row(n)` is the
`Z` row of qubit 0 and `z.row(n)` is the phase row. -/
theorem hadamard_at_height (T : ComboBitTable) (hn : 0 < T.height) (w : Nat) (hw : w < T.width) :
    (T.hadamard T.height).rWord w = T.zWord 0 w ∧
    (T.hadamard T.height).zWord 0 w = T.rWord w ^^^ (T.zWord 0 w &&& T.rWord w) := by
  have hB : T.width * T.height + T.height * T.width = T.width * T.height * 2 := by
    rw [Nat.mul_comm T.height T.width]; omega
  have hle : T.width ≤ T.width * T.height := Nat.le_mul_of_pos_right _ hn
  have hcore := hadamardCore_self (T.width * T.height * 2) (0 + T.height * T.width) T.width
    T.data (by rw [Nat.mul_comm T.height T.width]; omega) w hw
  have hd : (T.hadamard T.height).data
      = hadamardCore (T.width * T.height * 2) (0 + T.height * T.width)
          (T.width * T.height * 2) T.width T.data := by
    rw [hadamard_eq_core, hB]
  constructor
  · show (T.hadamard T.height).data (T.width * T.height * 2 + w) = T.data (T.width * T.height + 0 * T.width + w)
    rw [hd, hcore.1]
    congr 1
    rw [Nat.mul_comm T.height T.width]; omega
  · show (T.hadamard T.height).data (T.width * T.height + 0 * T.width + w)
      = T.data (T.width * T.height * 2 + w)
        ^^^ (T.data (T.width * T.height + 0 * T.width + w) &&& T.data (T.width * T.height * 2 + w))
    have e : T.width * T.height + 0 * T.width + w = 0 + T.height * T.width + w := by
      rw [Nat.mul_comm T.height T.width]; omega
    rw [e, hd, hcore.2]

/-- What `phase(n)` does on a tableau of `n >= 1` qubits. -/
theorem phase_at_height (T : ComboBitTable) (hn : 0 < T.height) (w : Nat) (hw : w < T.width) :
    (T.phase T.height).rWord w = T.rWord w ^^^ (T.zWord 0 w &&& T.rWord w) ^^^ T.zWord 0 w ∧
    (T.phase T.height).zWord 0 w = T.zWord 0 w := by
  have hB : T.width * T.height + T.height * T.width = T.width * T.height * 2 := by
    rw [Nat.mul_comm T.height T.width]; omega
  have hle : T.width ≤ T.width * T.height := Nat.le_mul_of_pos_right _ hn
  have hcore := phaseCore_self (T.width * T.height * 2) (0 + T.height * T.width) T.width
    T.data (by rw [Nat.mul_comm T.height T.width]; omega) w hw
  have hd : (T.phase T.height).data
      = phaseCore (T.width * T.height * 2) (0 + T.height * T.width)
          (T.width * T.height * 2) T.width T.data := by
    rw [phase_eq_core, hB]
  have e : T.width * T.height + 0 * T.width + w = 0 + T.height * T.width + w := by
    rw [Nat.mul_comm T.height T.width]; omega
  constructor
  · show (T.phase T.height).data (T.width * T.height * 2 + w)
      = T.data (T.width * T.height * 2 + w)
        ^^^ (T.data (T.width * T.height + 0 * T.width + w) &&& T.data (T.width * T.height * 2 + w))
        ^^^ T.data (T.width * T.height + 0 * T.width + w)
    rw [e, hd, hcore.1]
  · show (T.phase T.height).data (T.width * T.height + 0 * T.width + w)
      = T.data (T.width * T.height + 0 * T.width + w)
    rw [e, hd, hcore.2]

/-- C13 amended: `hadamard`, `phase` and `cnot` check no index and have no
failure to report: for every index, in range or not, they return a tableau of
the same dimensions and change no word outside the phase row and the sub-views
`row(q)` they assign to (`x.row(target)` and `z.row(target)` for `hadamard`,
`z.row(target)` for `phase`, `x.row(target)` and `z.row(control)` for `cnot`).
For `q >= n` these sub-views lie over other rows: `x.row(n + j)` starts where
`z.row(j)` does and `z.row(n)` where the phase row does. For `n >= 1` the calls
`hadamard(n)` and `phase(n)` write there: `hadamard(n)` leaves in each phase
word the `Z` word of qubit 0 and in each `Z` word of qubit 0 the old phase word
XOR (old `Z` word AND old phase word), and `phase(n)` leaves in each phase word
the old phase word XOR (old `Z` word of qubit 0 AND old phase word) XOR that
`Z` word. -/
theorem gates_unchecked (T : ComboBitTable) (control target : Nat) :
    ((T.hadamard target).width = T.width ∧ (T.hadamard target).height = T.height ∧
      ∀ a, (a < T.r.data ∨ T.r.data + T.width ≤ a) →
        (a < (T.x.row target).data ∨ (T.x.row target).data + T.width ≤ a) →
        (a < (T.z.row target).data ∨ (T.z.row target).data + T.width ≤ a) →
        (T.hadamard target).data a = T.data a) ∧
    ((T.phase target).width = T.width ∧ (T.phase target).height = T.height ∧
      ∀ a, (a < T.r.data ∨ T.r.data + T.width ≤ a) →
        (a < (T.z.row target).data ∨ (T.z.row target).data + T.width ≤ a) →
        (T.phase target).data a = T.data a) ∧
    ((T.cnot control target).width = T.width ∧ (T.cnot control target).height = T.height ∧
      ∀ a, (a < T.r.data ∨ T.r.data + T.width ≤ a) →
        (a < (T.x.row target).data ∨ (T.x.row target).data + T.width ≤ a) →
        (a < (T.z.row control).data ∨ (T.z.row control).data + T.width ≤ a) →
        (T.cnot control target).data a = T.data a) ∧
    (∀ j, (T.x.row (T.height + j)).data = (T.z.row j).data) ∧
    (T.z.row T.height).data = T.r.data ∧
    (0 < T.height → ∀ w, w < T.width →
      (T.hadamard T.height).rWord w = T.zWord 0 w ∧
      (T.hadamard T.height).zWord 0 w = T.rWord w ^^^ (T.zWord 0 w &&& T.rWord w) ∧
      (T.phase T.height).rWord w = T.rWord w ^^^ (T.zWord 0 w &&& T.rWord w) ^^^ T.zWord 0 w) := by
  refine ⟨⟨rfl, rfl, fun a h1 h2 h3 => hadamard_frame_any T target a h1 h2 h3⟩,
    ⟨rfl, rfl, fun a h1 h2 => phase_frame_any T target a h1 h2⟩,
    ⟨rfl, rfl, fun a h1 h2 h3 => cnot_frame_any T control target a h1 h2 h3⟩, ?_, ?_, ?_⟩
  · intro j
    simp only [x, z, BitTableView.row]
    rw [Nat.add_mul, Nat.mul_comm T.height T.width]
    omega
  · simp only [z, r, BitTableView.row]
    rw [Nat.mul_comm T.height T.width]
    omega
  · intro hn w hw
    exact ⟨(hadamard_at_height T hn w hw).1, (hadamard_at_height T hn w hw).2,
      (phase_at_height T hn w hw).1⟩

/-- Witness of C13 amended: on the one-qubit tableau `plusState`, `hadamard(1)`
leaves the `Z` word of qubit 0 in the phase word. -/
theorem gates_unchecked_witness :
    0 < plusState.height ∧ (plusState.hadamard 1).rWord 0 = plusState.zWord 0 0 :=
  ⟨by decide, ((gates_unchecked plusState 0 0).2.2.2.2.2 (by decide) 0 (by decide)).1⟩

end ComboBitTable
end TurnTable

namespace TurnTable
namespace ComboBitTable

/-! ## The identity state bit by bit -/

theorem testBit_two_pow_mod (q g : Nat) (h : g / 64 = q / 64) :
    (2 ^ (q % 64)).testBit (g % 64) = decide (g = q) := by
  rw [Nat.testBit_two_pow]
  by_cases e : g = q
  · subst e
    simp
  · have : ¬ q % 64 = g % 64 := by omega
    simp [e, this]

theorem identity_xBit (W n g q : Nat) (hg : g < 64 * W) (hq : q < n) :
    (identity W n).xBit g q = decide (g = q) := by
  have hb := row_bound W n q hq
  have hw : g / 64 < W := by omega
  have hmod : (q * W + g / 64) % W = g / 64 := by
    rw [Nat.add_comm, Nat.add_mul_mod_self_right, Nat.mod_eq_of_lt hw]
  have hdiv : (q * W + g / 64) / W = q := by
    rw [Nat.add_comm, Nat.add_mul_div_right _ _ (by omega : 0 < W), Nat.div_eq_of_lt hw,
      Nat.zero_add]
  show ((identity W n).data (0 + q * W + g / 64)).testBit (g % 64) = _
  rw [Nat.zero_add]
  show (if q * W + g / 64 < W * n then
      (if (q * W + g / 64) % W = (q * W + g / 64) / W / 64
        then 2 ^ ((q * W + g / 64) / W % 64) else 0)
    else _).testBit (g % 64) = _
  rw [if_pos (by omega), hmod, hdiv]
  by_cases h : g / 64 = q / 64
  · rw [if_pos h, testBit_two_pow_mod q g h]
  · rw [if_neg h, Nat.zero_testBit]
    have : ¬ g = q := fun e => h (by rw [e])
    simp [this]

theorem identity_zBit (W n g q : Nat) (hg : g < 64 * W) (hq : q < n) :
    (identity W n).zBit g q = decide (g = n + q) := by
  have hb := row_bound W n q hq
  have hw : g / 64 < W := by omega
  have hsub : W * n + q * W + g / 64 - W * n = q * W + g / 64 := by omega
  have hmod : (q * W + g / 64) % W = g / 64 := by
    rw [Nat.add_comm, Nat.add_mul_mod_self_right, Nat.mod_eq_of_lt hw]
  have hdiv : (q * W + g / 64) / W = q := by
    rw [Nat.add_comm, Nat.add_mul_div_right _ _ (by omega : 0 < W), Nat.div_eq_of_lt hw,
      Nat.zero_add]
  show (if W * n + q * W + g / 64 < W * n then _
    else if W * n + q * W + g / 64 < W * n * 2 then
      (if (W * n + q * W + g / 64 - W * n) % W = (n + (W * n + q * W + g / 64 - W * n) / W) / 64
        then 2 ^ ((n + (W * n + q * W + g / 64 - W * n) / W) % 64) else 0)
    else 0).testBit (g % 64) = _
  rw [if_neg (by omega), if_pos (by omega), hsub, hmod, hdiv]
  by_cases h : g / 64 = (n + q) / 64
  · rw [if_pos h, testBit_two_pow_mod (n + q) g h]
  · rw [if_neg h, Nat.zero_testBit]
    have : ¬ g = n + q := fun e => h (by rw [e])
    simp [this]

theorem identity_rBit (W n g : Nat) : (identity W n).rBit g = false := by
  show (if W * n * 2 + 0 * W + g / 64 < W * n then _
    else if W * n * 2 + 0 * W + g / 64 < W * n * 2 then _ else 0).testBit (g % 64) = _
  rw [if_neg (by omega), if_neg (by omega), Nat.zero_testBit]

theorem cnot_rBit (T : ComboBitTable) (c t : Nat) (hc : c < T.height) (ht : t < T.height)
    (hct : c ≠ t) (g : Nat) (hg : g < 64 * T.width) :
    (T.cnot c t).rBit g
      = (T.rBit g ^^ (T.xBit g c && T.zBit g t && !(T.xBit g t ^^ T.zBit g t))) := by
  have hw : g / 64 < T.width := by omega
  have h64 : g % 64 < 64 := Nat.mod_lt _ (by decide)
  rw [rBit_eq_rWord, cnot_rWord T c t hc ht hct _ hw, rBit_eq_rWord]
  simp only [Nat.testBit_xor, Nat.testBit_and, testBit_not64, xBit_eq_xWord, zBit_eq_zWord,
    Nat.zero_testBit, h64, decide_True]
  cases (T.xWord t (g / 64)).testBit (g % 64) <;> cases (T.zWord t (g / 64)).testBit (g % 64) <;>
    rfl

end ComboBitTable
end TurnTable

namespace TurnTable
namespace ComboBitTable

/-- C11 as stated fails: after `cnot(0, 1)` on the two-qubit identity state
neither stabilizer row is the string `Z1`; row 2 has its `Z` bit on qubit 0 and
none on qubit 1, row 3 has both. -/
theorem cnot_identity_no_row_Z1 :
    ¬ ((identity 1 2).cnot 0 1).RowIs 2 (fun _ => false) (fun j => decide (j = 1)) false ∧
    ¬ ((identity 1 2).cnot 0 1).RowIs 3 (fun _ => false) (fun j => decide (j = 1)) false := by
  have h2 : ((identity 1 2).cnot 0 1).zBit 2 0 = true := by
    rw [cnot_zBit _ 0 1 (by decide) (by decide) (by decide) 2 0 (by decide) (by decide)]
    decide
  have h3 : ((identity 1 2).cnot 0 1).zBit 3 0 = true := by
    rw [cnot_zBit _ 0 1 (by decide) (by decide) (by decide) 3 0 (by decide) (by decide)]
    decide
  constructor
  · intro h
    have := (h.1 0 (by decide)).2
    rw [h2] at this
    exact absurd this (by decide)
  · intro h
    have := (h.1 0 (by decide)).2
    rw [h3] at this
    exact absurd this (by decide)

/-- C11 amended: for two qubits, in rows of any positive width, after
`cnot(0, 1)` on the identity state the stabilizer rows are `Z0` (row 2) and
`Z0 Z1` (row 3), both with phase 0; the product of the two rows is `Z1` with
phase 0, so they generate the group `Z0 Z1` and `Z1` generate. -/
theorem cnot_identity_stabilizers (W : Nat) (hW : 1 ≤ W) :
    ((identity W 2).cnot 0 1).RowIs 2 (fun _ => false) (fun j => decide (j = 0)) false ∧
    ((identity W 2).cnot 0 1).RowIs 3 (fun _ => false) (fun _ => true) false ∧
    (∀ j, j < 2 →
      (PauliString.mul 2 (((identity W 2).cnot 0 1).rowString 2)
        (((identity W 2).cnot 0 1).rowString 3)).x j = false ∧
      (PauliString.mul 2 (((identity W 2).cnot 0 1).rowString 2)
        (((identity W 2).cnot 0 1).rowString 3)).z j = decide (j = 1)) ∧
    (PauliString.mul 2 (((identity W 2).cnot 0 1).rowString 2)
      (((identity W 2).cnot 0 1).rowString 3)).phase = 0 := by
  have h0 : 0 < (identity W 2).height := by show 0 < 2; decide
  have h1 : 1 < (identity W 2).height := by show 1 < 2; decide
  have hx : ∀ g, g = 2 ∨ g = 3 → ∀ j, j < 2 → ((identity W 2).cnot 0 1).xBit g j = false := by
    intro g hg j hj
    have hgw : g < 64 * W := by omega
    rw [cnot_xBit (identity W 2) 0 1 h0 h1 (by decide) g j hgw hj,
      identity_xBit W 2 g 1 hgw (by decide), identity_xBit W 2 g 0 hgw (by decide),
      identity_xBit W 2 g j hgw hj]
    have h0 : ¬ g = 0 := by omega
    have h1 : ¬ g = 1 := by omega
    have hj' : ¬ g = j := by omega
    simp [h0, h1, hj']
  have hz : ∀ g, g = 2 ∨ g = 3 → ∀ j, j < 2 →
      ((identity W 2).cnot 0 1).zBit g j = (decide (j = 0) || decide (g = 3)) := by
    intro g hg j hj
    have hgw : g < 64 * W := by omega
    rw [cnot_zBit (identity W 2) 0 1 h0 h1 (by decide) g j hgw hj,
      identity_zBit W 2 g 1 hgw (by decide), identity_zBit W 2 g 0 hgw (by decide),
      identity_zBit W 2 g j hgw hj]
    rcases hg with rfl | rfl <;> interval_cases j <;> decide
  have hr : ∀ g, g = 2 ∨ g = 3 → ((identity W 2).cnot 0 1).rBit g = false := by
    intro g hg
    have hgw : g < 64 * W := by omega
    rw [cnot_rBit (identity W 2) 0 1 h0 h1 (by decide) g hgw,
      identity_rBit, identity_xBit W 2 g 0 hgw (by decide)]
    have h0 : ¬ g = 0 := by omega
    simp [h0]
  refine ⟨⟨fun j hj => ⟨hx 2 (Or.inl rfl) j hj, ?_⟩, hr 2 (Or.inl rfl)⟩,
    ⟨fun j hj => ⟨hx 3 (Or.inr rfl) j hj, ?_⟩, hr 3 (Or.inr rfl)⟩, fun j hj => ⟨?_, ?_⟩, ?_⟩
  · rw [hz 2 (Or.inl rfl) j hj]
    simp
  · rw [hz 3 (Or.inr rfl) j hj]
    simp
  · show (((identity W 2).cnot 0 1).xBit 2 j ^^ ((identity W 2).cnot 0 1).xBit 3 j) = false
    rw [hx 2 (Or.inl rfl) j hj, hx 3 (Or.inr rfl) j hj]
    rfl
  · show (((identity W 2).cnot 0 1).zBit 2 j ^^ ((identity W 2).cnot 0 1).zBit 3 j) = _
    rw [hz 2 (Or.inl rfl) j hj, hz 3 (Or.inr rfl) j hj]
    interval_cases j <;> decide
  · show ((if ((identity W 2).cnot 0 1).rBit 2 then (2 : Int) else 0)
      + (if ((identity W 2).cnot 0 1).rBit 3 then (2 : Int) else 0)
      + PauliString.exponentSum 2 (((identity W 2).cnot 0 1).rowString 2)
          (((identity W 2).cnot 0 1).rowString 3)) % 4 = 0
    have hsum : PauliString.exponentSum 2 (((identity W 2).cnot 0 1).rowString 2)
        (((identity W 2).cnot 0 1).rowString 3) = 0 := by
      show (List.range 2).foldl (fun t j => t + pauliExponent
        (((identity W 2).cnot 0 1).xBit 2 j) (((identity W 2).cnot 0 1).zBit 2 j)
        (((identity W 2).cnot 0 1).xBit 3 j) (((identity W 2).cnot 0 1).zBit 3 j)) 0 = 0
      simp only [List.range_succ, List.range_zero, List.nil_append, List.cons_append,
        List.foldl_cons, List.foldl_nil]
      rw [hx 2 (Or.inl rfl) 0 (by decide), hx 2 (Or.inl rfl) 1 (by decide),
        hx 3 (Or.inr rfl) 0 (by decide), hx 3 (Or.inr rfl) 1 (by decide),
        hz 2 (Or.inl rfl) 0 (by decide), hz 2 (Or.inl rfl) 1 (by decide),
        hz 3 (Or.inr rfl) 0 (by decide), hz 3 (Or.inr rfl) 1 (by decide)]
      decide
    rw [hsum, hr 2 (Or.inl rfl), hr 3 (Or.inr rfl)]
    decide

/-- Witness of C11 amended, with one word per row. -/
theorem cnot_identity_stabilizers_witness :
    ((identity 1 2).cnot 0 1).RowIs 2 (fun _ => false) (fun j => decide (j = 0)) false ∧
    ((identity 1 2).cnot 0 1).RowIs 3 (fun _ => false) (fun _ => true) false :=
  ⟨(cnot_identity_stabilizers 1 (by decide)).1, (cnot_identity_stabilizers 1 (by decide)).2.1⟩

end ComboBitTable
end TurnTable
